import Mathlib

/-!
# A Lean model of the kong Monkey compiler core

This file is a shallow embedding of the parts of the kong repository
(github.com/dr8co/kong, a bytecode compiler and VM for the Monkey language)
that its specification makes claims about:

* the `code` package: opcode definitions, instruction encoding (`Make`),
  operand decoding, and the disassembler `Instructions.String`;
* the `compiler` package: the symbol table (`Define`, `Resolve`,
  `DefineBuiltin`, `defineFree`, `DefineFunctionName`) and the single-pass
  AST-to-bytecode compiler (`Compiler.Compile`);
* the `object` package: `HashKey` for the hashable values and the
  built-in functions `len`, `first`, `rest`, `last`, `push`.

Modeling conventions:

* Go byte slices are `List Nat` (each entry < 256 where produced by the code);
  `int64` is `Int` (no compile-time arithmetic overflows are exercised);
  Go maps `string → Symbol` are association lists with insert-or-replace.
* Go's general recursion is embedded with an explicit fuel parameter
  (`compileGo`, `stringLoop`); running out of fuel yields a distinguished
  result that is not produced by any of the source's paths, so every theorem
  about a successful run is fuel-independent.  Fuel recursion keeps every
  definition kernel-computable.
* The compiler's `scopes` stack is kept with the *current* scope at the head
  of the list (Go keeps `scopeIndex = len(scopes)-1` pointing at the end;
  the two are in bijection and all operations preserve it).
* `slices.SortFunc(keys, strings.Compare∘String)` sorts the hash-literal
  keys by byte-wise string comparison; UTF-8 byte order coincides with
  code-point order, so the comparison is modeled on `String.data`.
  Go's sort is unstable and the map iteration order feeding it is
  arbitrary; a `PairList` records one iteration order of the Go map and the
  model sorts it stably, which realizes one of the orders Go can produce.
-/

namespace Kong

/-! ## The `code` package -/

/-- `code.Definition`: an instruction's name and its operand widths. -/
structure Definition where
  name : String
  operandWidths : List Nat
deriving DecidableEq

/-- The `definitions` table of the `code` package, keyed by the opcode byte
(opcodes are `iota`-numbered 0..29 in source order).  Undefined bytes have
no entry. -/
def lookupDefinition : Nat → Option Definition
  | 0 => some ⟨"OpConstant", [2]⟩
  | 1 => some ⟨"OpAdd", []⟩
  | 2 => some ⟨"OpPop", []⟩
  | 3 => some ⟨"OpSub", []⟩
  | 4 => some ⟨"OpMul", []⟩
  | 5 => some ⟨"OpDiv", []⟩
  | 6 => some ⟨"OpTrue", []⟩
  | 7 => some ⟨"OpFalse", []⟩
  | 8 => some ⟨"OpEqual", []⟩
  | 9 => some ⟨"OpNotEqual", []⟩
  | 10 => some ⟨"OpGreaterThan", []⟩
  | 11 => some ⟨"OpMinus", []⟩
  | 12 => some ⟨"OpBang", []⟩
  | 13 => some ⟨"OpJumpNotTruthy", [2]⟩
  | 14 => some ⟨"OpJump", [2]⟩
  | 15 => some ⟨"OpNull", []⟩
  | 16 => some ⟨"OpGetGlobal", [2]⟩
  | 17 => some ⟨"OpSetGlobal", [2]⟩
  | 18 => some ⟨"OpArray", [2]⟩
  | 19 => some ⟨"OpHash", [2]⟩
  | 20 => some ⟨"OpIndex", []⟩
  | 21 => some ⟨"OpCall", [1]⟩
  | 22 => some ⟨"OpReturnValue", []⟩
  | 23 => some ⟨"OpReturn", []⟩
  | 24 => some ⟨"OpGetLocal", [1]⟩
  | 25 => some ⟨"OpSetLocal", [1]⟩
  | 26 => some ⟨"OpGetBuiltin", [1]⟩
  | 27 => some ⟨"OpClosure", [2, 1]⟩
  | 28 => some ⟨"OpGetFree", [1]⟩
  | 29 => some ⟨"OpCurrentClosure", []⟩
  | _ => none

/-- `code.Opcode`, as the enumeration of the thirty defined opcodes. -/
inductive Opcode where
  | opConstant | opAdd | opPop | opSub | opMul | opDiv | opTrue | opFalse
  | opEqual | opNotEqual | opGreaterThan | opMinus | opBang
  | opJumpNotTruthy | opJump | opNull | opGetGlobal | opSetGlobal
  | opArray | opHash | opIndex | opCall | opReturnValue | opReturn
  | opGetLocal | opSetLocal | opGetBuiltin | opClosure | opGetFree
  | opCurrentClosure
deriving DecidableEq

/-- The byte value of an opcode (`iota` order of the source). -/
def opByte : Opcode → Nat
  | .opConstant => 0
  | .opAdd => 1
  | .opPop => 2
  | .opSub => 3
  | .opMul => 4
  | .opDiv => 5
  | .opTrue => 6
  | .opFalse => 7
  | .opEqual => 8
  | .opNotEqual => 9
  | .opGreaterThan => 10
  | .opMinus => 11
  | .opBang => 12
  | .opJumpNotTruthy => 13
  | .opJump => 14
  | .opNull => 15
  | .opGetGlobal => 16
  | .opSetGlobal => 17
  | .opArray => 18
  | .opHash => 19
  | .opIndex => 20
  | .opCall => 21
  | .opReturnValue => 22
  | .opReturn => 23
  | .opGetLocal => 24
  | .opSetLocal => 25
  | .opGetBuiltin => 26
  | .opClosure => 27
  | .opGetFree => 28
  | .opCurrentClosure => 29

/-- The operand widths of a (defined) opcode, read off the definitions table. -/
def opWidths (op : Opcode) : List Nat :=
  ((lookupDefinition (opByte op)).getD ⟨"", []⟩).operandWidths

/-- Operand encoding of `code.Make`: each operand is written big-endian in its
width (1 byte: `byte(operand)`; 2 bytes: `PutUint16(uint16(operand))`).
Operands that are not supplied leave their slots at the zero bytes the Go
buffer was allocated with; widths other than 1 and 2 are skipped, also
leaving zero bytes.  (Supplying more operands than the definition has widths
makes the Go code panic; that path is unreachable from the compiler and has
no model.) -/
def writeOperands : List Nat → List Nat → List Nat
  | [], _ => []
  | w :: ws, [] => List.replicate w 0 ++ writeOperands ws []
  | w :: ws, v :: vs =>
    (if w = 1 then [v % 256]
     else if w = 2 then [(v % 65536) / 256, v % 65536 % 256]
     else List.replicate w 0) ++ writeOperands ws vs

/-- `code.Make`: encode one instruction.  An opcode with no entry in the
definitions table yields the empty byte slice. -/
def Make (op : Nat) (operands : List Nat) : List Nat :=
  match lookupDefinition op with
  | none => []
  | some d => op :: writeOperands d.operandWidths operands

/-- `code.ReadOperands`: decode the operands following an opcode byte,
returning them and the number of bytes read.  (Reading past the end of the
slice panics in Go; the model reads zeros there.  The disassembler only
reaches that case on truncated instruction streams.) -/
def readOperands (d : Definition) (ins : List Nat) : List Nat × Nat :=
  d.operandWidths.foldl
    (fun acc w =>
      let v :=
        if w = 1 then (ins.drop acc.2).headD 0
        else if w = 2 then 256 * (ins.drop acc.2).headD 0 + ((ins.drop acc.2).tail.headD 0)
        else 0
      (acc.1 ++ [v], acc.2 + w))
    ([], 0)

/-- `%04d`: decimal rendering left-padded with zeros to width 4. -/
def pad4 (n : Nat) : String :=
  let s := toString n
  String.mk (List.replicate (4 - s.length) '0') ++ s

/-- `Instructions.fmtInstruction`. -/
def fmtInstruction (d : Definition) (operands : List Nat) : String :=
  if operands.length ≠ d.operandWidths.length then
    "ERROR: operand len " ++ toString operands.length ++ " does not match defined " ++
      toString d.operandWidths.length ++ "\n"
  else
    match d.operandWidths.length with
    | 0 => d.name
    | 1 => d.name ++ " " ++ toString (operands.headD 0)
    | 2 => d.name ++ " " ++ toString (operands.headD 0) ++ " " ++ toString (operands.tail.headD 0)
    | _ => "ERROR: unhandled operandCount for " ++ d.name ++ "\n"

/-- The loop body of `Instructions.String`, with fuel counting loop
iterations.  `none` means the given number of iterations did not reach the
end of the loop.  The `Lookup` failure branch reproduces the source exactly:
it appends the `ERROR:` line and `continue`s *without advancing `i`*. -/
def stringLoop : Nat → List Nat → Nat → String → Option String
  | 0, _, _, _ => none
  | fuel + 1, ins, i, out =>
    if h : i < ins.length then
      match lookupDefinition (ins.get ⟨i, h⟩) with
      | none =>
        stringLoop fuel ins i
          (out ++ "ERROR: opcode " ++ toString (ins.get ⟨i, h⟩) ++ " undefined\n")
      | some d =>
        let r := readOperands d (ins.drop (i + 1))
        stringLoop fuel ins (i + r.2 + 1) (out ++ pad4 i ++ " " ++ fmtInstruction d r.1 ++ "\n")
    else some out

/-- `Instructions.String`, run for at most `fuel` loop iterations. -/
def instructionsString (fuel : Nat) (ins : List Nat) : Option String :=
  stringLoop fuel ins 0 ""

/-! ## Byte-wise string comparison (`strings.Compare`) -/

/-- Byte-order `≤` on character lists.  UTF-8 byte order agrees with
code-point order, so comparing code points models Go's byte-wise
`strings.Compare`. -/
def charsLE : List Char → List Char → Bool
  | [], _ => true
  | _ :: _, [] => false
  | a :: as, b :: bs =>
    if a.toNat < b.toNat then true
    else if b.toNat < a.toNat then false
    else charsLE as bs

/-- `strings.Compare(a, b) <= 0`. -/
def strLE (a b : String) : Bool := charsLE a.data b.data

/-! ## The `ast` package

The node shapes the compiler consumes, with the token literals that the
`String()` renderings depend on.  `BlockStatement` is a statement list;
a `nil` alternative block is `AltBlock.noAlt`.  A Go `HashLiteral` stores
its pairs in a `map[ast.Expression]ast.Expression`; a `PairList` records
those pairs in one (arbitrary) iteration order of that map. -/

mutual
inductive Expr where
  | intLit (lit : String) (value : Int)
  | boolLit (lit : String) (value : Bool)
  | strLit (lit : String) (value : String)
  | identE (name : String)
  | prefixExpr (operator : String) (right : Expr)
  | infixExpr (operator : String) (left : Expr) (right : Expr)
  | ifExpr (condition : Expr) (consequence : StmtList) (alternative : AltBlock)
  | arrayLit (elements : ExprList)
  | hashLit (pairs : PairList)
  | indexExpr (left : Expr) (index : Expr)
  | funcLit (name : String) (parameters : List String) (body : StmtList)
  | callExpr (function : Expr) (arguments : ExprList)

inductive AltBlock where
  | noAlt
  | withAlt (block : StmtList)

inductive Stmt where
  | letStmt (name : String) (value : Expr)
  | returnStmt (value : Expr)
  | exprStmt (expression : Expr)

inductive StmtList where
  | nil
  | cons (head : Stmt) (tail : StmtList)

inductive ExprList where
  | nil
  | cons (head : Expr) (tail : ExprList)

inductive PairList where
  | nil
  | cons (key : Expr) (value : Expr) (tail : PairList)
end

/- The `String()` methods of the `ast` package (used by the compiler to
sort hash-literal keys).  `IntegerLiteral`, `Boolean` and `StringLiteral`
render their token literal; identifiers render their name; the remaining
forms follow the `strings.Builder` code of `ast.go`.  (A `HashLiteral`
renders its pairs in the recorded iteration order.) -/
mutual
def renderExpr : Expr → String
  | .intLit lit _ => lit
  | .boolLit lit _ => lit
  | .strLit lit _ => lit
  | .identE name => name
  | .prefixExpr op r => "(" ++ op ++ renderExpr r ++ ")"
  | .infixExpr op l r => "(" ++ renderExpr l ++ " " ++ op ++ " " ++ renderExpr r ++ ")"
  | .ifExpr c cons alt => "if" ++ renderExpr c ++ " " ++ renderStmtList cons ++ renderAlt alt
  | .arrayLit elems => "[" ++ String.intercalate ", " (renderExprList elems) ++ "]"
  | .hashLit pairs => "\x7b" ++ String.intercalate ", " (renderPairList pairs) ++ "\x7d"
  | .indexExpr l i => "(" ++ renderExpr l ++ "[" ++ renderExpr i ++ "])"
  | .funcLit n ps body =>
    "fn" ++ (if n ≠ "" then "<" ++ n ++ ">" else "") ++ "(" ++ String.intercalate ", " ps ++
      ")" ++ renderStmtList body
  | .callExpr f args => renderExpr f ++ "(" ++ String.intercalate ", " (renderExprList args) ++ ")"

def renderAlt : AltBlock → String
  | .noAlt => ""
  | .withAlt b => "else " ++ renderStmtList b

def renderStmt : Stmt → String
  | .letStmt n v => "let " ++ n ++ " = " ++ renderExpr v ++ ";"
  | .returnStmt v => "return " ++ renderExpr v ++ ";"
  | .exprStmt e => renderExpr e

def renderStmtList : StmtList → String
  | .nil => ""
  | .cons s rest => renderStmt s ++ renderStmtList rest

def renderExprList : ExprList → List String
  | .nil => []
  | .cons e rest => renderExpr e :: renderExprList rest

def renderPairList : PairList → List String
  | .nil => []
  | .cons k v rest => (renderExpr k ++ ":" ++ renderExpr v) :: renderPairList rest
end

/-- The recorded map-iteration order of a hash literal's pairs, as a list. -/
def PairList.toList : PairList → List (Expr × Expr)
  | .nil => []
  | .cons k v rest => (k, v) :: PairList.toList rest

/-- The number of pairs of a hash literal (`len(node.Pairs)`). -/
def PairList.length (pl : PairList) : Nat := pl.toList.length

/-- The string rendering of a hash pair's key (the compiler's sort key). -/
def keyStr (p : Expr × Expr) : String := renderExpr p.1

/-- The compiler's key order: `strings.Compare(a.String(), b.String()) <= 0`. -/
def pairLE (p q : Expr × Expr) : Prop := strLE (keyStr p) (keyStr q) = true

instance : DecidableRel pairLE := fun _ _ => inferInstanceAs (Decidable (_ = true))

/-- The sorted key/value pairs of a hash literal: `slices.SortFunc(keys, …)`
followed by the `node.Pairs[k]` lookups, modeled as sorting the pairs by
rendered key. -/
def sortPairs (pairs : PairList) : List (Expr × Expr) :=
  List.insertionSort pairLE pairs.toList

/-! ## The symbol table (`compiler` package) -/

/-- `compiler.SymbolScope`. -/
inductive SymbolScope where
  | globalScope
  | localScope
  | builtinScope
  | freeScope
  | functionScope
deriving DecidableEq

/-- `compiler.Symbol`. -/
structure Symbol where
  name : String
  scope : SymbolScope
  index : Nat
deriving DecidableEq

/-- One `SymbolTable` record: its `store` map (as an association list),
`numDefinitions` counter, and `FreeSymbols` list.  The `Outer` chain is a
list of frames, innermost first. -/
structure TableFrame where
  store : List (String × Symbol)
  numDefinitions : Nat
  freeSymbols : List Symbol
deriving DecidableEq

/-- Go map read `store[name]`. -/
def storeLookup : List (String × Symbol) → String → Option Symbol
  | [], _ => none
  | (k, v) :: rest, n => if k = n then some v else storeLookup rest n

/-- Go map write `store[name] = sym` (replace or append). -/
def storeInsert : List (String × Symbol) → String → Symbol → List (String × Symbol)
  | [], n, s => [(n, s)]
  | (k, v) :: rest, n, s =>
    if k = n then (n, s) :: rest else (k, v) :: storeInsert rest n s

/-- `SymbolTable.Define`: index `numDefinitions`, scope Global when there is
no outer table, Local otherwise; stores and increments the counter.  (Called
on an empty chain — impossible in the source, where tables are never nil —
it returns a dummy symbol and leaves the chain empty.) -/
def defineSym : List TableFrame → String → Symbol × List TableFrame
  | [], name => (⟨name, .globalScope, 0⟩, [])
  | f :: outer, name =>
    let scope := if outer.isEmpty then SymbolScope.globalScope else SymbolScope.localScope
    let sym : Symbol := ⟨name, scope, f.numDefinitions⟩
    (sym, { f with store := storeInsert f.store name sym,
                   numDefinitions := f.numDefinitions + 1 } :: outer)

/-- `SymbolTable.DefineBuiltin`: scope Builtin, given index, counter untouched. -/
def defineBuiltin : List TableFrame → Nat → String → List TableFrame
  | [], _, _ => []
  | f :: outer, index, name =>
    { f with store := storeInsert f.store name ⟨name, .builtinScope, index⟩ } :: outer

/-- `SymbolTable.DefineFunctionName`: scope Function, index 0, counter untouched. -/
def defineFunctionName : List TableFrame → String → List TableFrame
  | [], _ => []
  | f :: outer, name =>
    { f with store := storeInsert f.store name ⟨name, .functionScope, 0⟩ } :: outer

/-- `SymbolTable.Resolve`: look up locally; otherwise resolve in the outer
chain, and when that returns a symbol whose scope is neither Global nor
Builtin, promote it with `defineFree`: append the original symbol to
`FreeSymbols`, store `{name, Free, len(FreeSymbols)-1}` under the original
symbol's name, and return the stored Free symbol.  The returned chain
carries the mutations `defineFree` made at every level.  (Go's
`s.Outer == nil` early return coincides with recursing into the empty
chain: both yield not-found with no mutation.) -/
def resolve : List TableFrame → String → Option Symbol × List TableFrame
  | [], _ => (none, [])
  | f :: outer, name =>
    match storeLookup f.store name with
    | some sym => (some sym, f :: outer)
    | none =>
      match resolve outer name with
      | (none, outer') => (none, f :: outer')
      | (some sym, outer') =>
        if sym.scope = .globalScope ∨ sym.scope = .builtinScope then
          (some sym, f :: outer')
        else
          let freeSymbols' := f.freeSymbols ++ [sym]
          let fsym : Symbol := ⟨sym.name, .freeScope, freeSymbols'.length - 1⟩
          (some fsym,
            { f with store := storeInsert f.store sym.name fsym,
                     freeSymbols := freeSymbols' } :: outer')

/-- Store well-formedness: every entry is keyed by its symbol's name.  Every
table built through the `Define*` API satisfies this. -/
def FrameWF (f : TableFrame) : Prop := ∀ p ∈ f.store, p.2.name = p.1

/-- Well-formedness of a whole chain of tables. -/
def TablesWF (ts : List TableFrame) : Prop := ∀ f ∈ ts, FrameWF f

instance (f : TableFrame) : Decidable (FrameWF f) :=
  inferInstanceAs (Decidable (∀ p ∈ f.store, p.2.name = p.1))

instance (ts : List TableFrame) : Decidable (TablesWF ts) :=
  inferInstanceAs (Decidable (∀ f ∈ ts, FrameWF f))

/-! ## The compiler (`compiler` package) -/

/-- The `object.Object` values a compilation can place in the constant pool. -/
inductive Obj where
  | integer (value : Int)
  | strObj (value : String)
  | compiledFunction (instructions : List Nat) (numLocals : Nat) (numParameters : Nat)
deriving DecidableEq

/-- `compiler.EmittedInstruction`.  The Go zero value is
`{OpConstant, 0}` (`Opcode(0)` is `OpConstant`). -/
structure EmittedInstruction where
  opcode : Opcode
  position : Nat
deriving DecidableEq

/-- `compiler.CompilationScope`. -/
structure CompilationScope where
  instructions : List Nat
  lastInstruction : EmittedInstruction
  previousInstruction : EmittedInstruction
deriving DecidableEq

/-- `newCompilationScope()`: empty instructions, zero-valued instruction
trackers. -/
def newCompilationScope : CompilationScope :=
  ⟨[], ⟨.opConstant, 0⟩, ⟨.opConstant, 0⟩⟩

/-- `compiler.Compiler`: constant pool, current symbol-table chain, and the
scope stack with the *current* scope at the head (Go indexes the end via
`scopeIndex = len(scopes)-1`). -/
structure Compiler where
  constants : List Obj
  symbolTable : List TableFrame
  scopes : List CompilationScope
deriving DecidableEq

/-- `scopes[scopeIndex]`. -/
def currentScope (c : Compiler) : CompilationScope := c.scopes.headD newCompilationScope

/-- `Compiler.currentInstructions`. -/
def currentInstructions (c : Compiler) : List Nat := (currentScope c).instructions

/-- Write back the current scope (`scopes[scopeIndex] = s`).  On an empty
scope stack — where Go would panic on the index — this is a no-op, so the
stack's length is always preserved. -/
def setCurrentScope (c : Compiler) (s : CompilationScope) : Compiler :=
  { c with scopes := match c.scopes with
                     | [] => []
                     | _ :: t => s :: t }

/-- `Compiler.addConstant`: append and return the new constant's index. -/
def addConstant (c : Compiler) (obj : Obj) : Nat × Compiler :=
  (c.constants.length, { c with constants := c.constants ++ [obj] })

/-- `Compiler.addInstruction`: append bytes to the current scope, returning
the position where they start. -/
def addInstruction (c : Compiler) (ins : List Nat) : Nat × Compiler :=
  let pos := (currentInstructions c).length
  (pos, setCurrentScope c { currentScope c with instructions := currentInstructions c ++ ins })

/-- `Compiler.setLastInstruction`. -/
def setLastInstruction (c : Compiler) (op : Opcode) (pos : Nat) : Compiler :=
  let s := currentScope c
  setCurrentScope c
    { s with previousInstruction := s.lastInstruction, lastInstruction := ⟨op, pos⟩ }

/-- `Compiler.emit`: encode, append, and record the last instruction. -/
def emit (c : Compiler) (op : Opcode) (operands : List Nat) : Nat × Compiler :=
  let ins := Make (opByte op) operands
  let a := addInstruction c ins
  (a.1, setLastInstruction a.2 op a.1)

/-- `Compiler.lastInstructionIs`. -/
def lastInstructionIs (c : Compiler) (op : Opcode) : Bool :=
  if (currentInstructions c).length = 0 then false
  else (currentScope c).lastInstruction.opcode = op

/-- `Compiler.removeLastPop`: truncate the current instructions at the last
instruction's position and restore `lastInstruction` from
`previousInstruction`. -/
def removeLastPop (c : Compiler) : Compiler :=
  let s := currentScope c
  setCurrentScope c
    { s with instructions := s.instructions.take s.lastInstruction.position,
             lastInstruction := s.previousInstruction }

/-- In-place byte overwrite starting at `pos`, as `Compiler.replaceInstruction`
performs it.  Writing past the end of the list panics in Go; the model stops
at the end (the compiler only patches instructions it has already emitted,
so the bytes are always in range). -/
def overwriteAt : List Nat → Nat → List Nat → List Nat
  | ins, _, [] => ins
  | [], _, _ :: _ => []
  | _ :: rest, 0, n :: ns => n :: overwriteAt rest 0 ns
  | b :: rest, p + 1, ns => b :: overwriteAt rest p ns

/-- `Compiler.replaceInstruction`. -/
def replaceInstruction (c : Compiler) (pos : Nat) (newInstruction : List Nat) : Compiler :=
  let s := currentScope c
  setCurrentScope c { s with instructions := overwriteAt s.instructions pos newInstruction }

/-- `Compiler.changeOperand`: re-encode the instruction at `opPos` with the
opcode byte found there and the new operand. -/
def changeOperand (c : Compiler) (opPos : Nat) (operand : Nat) : Compiler :=
  let op := (currentInstructions c).getD opPos 0
  replaceInstruction c opPos (Make op [operand])

/-- `Compiler.replaceLastPopWithReturn`: overwrite the byte at the last
instruction's position with `OpReturnValue` and retag `lastInstruction`. -/
def replaceLastPopWithReturn (c : Compiler) : Compiler :=
  let lastPos := (currentScope c).lastInstruction.position
  let c1 := replaceInstruction c lastPos (Make (opByte .opReturnValue) [])
  let s := currentScope c1
  setCurrentScope c1
    { s with lastInstruction := { s.lastInstruction with opcode := .opReturnValue } }

/-- `Compiler.enterScope`: push a fresh compilation scope and an enclosed
symbol table. -/
def enterScope (c : Compiler) : Compiler :=
  { c with scopes := newCompilationScope :: c.scopes,
           symbolTable := TableFrame.mk [] 0 [] :: c.symbolTable }

/-- `Compiler.leaveScope`: pop the scope, restore the outer symbol table,
return the popped scope's instructions. -/
def leaveScope (c : Compiler) : List Nat × Compiler :=
  (currentInstructions c,
   { c with scopes := c.scopes.tail, symbolTable := c.symbolTable.tail })

/-- `Compiler.loadSymbol`. -/
def loadSymbol (c : Compiler) (s : Symbol) : Compiler :=
  match s.scope with
  | .globalScope => (emit c .opGetGlobal [s.index]).2
  | .localScope => (emit c .opGetLocal [s.index]).2
  | .builtinScope => (emit c .opGetBuiltin [s.index]).2
  | .freeScope => (emit c .opGetFree [s.index]).2
  | .functionScope => (emit c .opCurrentClosure []).2

/-- The function-literal epilogue: rewrite a trailing `OpPop` in place to
`OpReturnValue`; then, if the last instruction still is not `OpReturnValue`,
emit `OpReturn`. -/
def finalizeFunctionBody (c : Compiler) : Compiler :=
  let c4 := if lastInstructionIs c .opPop then replaceLastPopWithReturn c else c
  if lastInstructionIs c4 .opReturnValue then c4 else (emit c4 .opReturn []).2

/-- `Define` each parameter in declaration order. -/
def defineParams (ts : List TableFrame) (params : List String) : List TableFrame :=
  params.foldl (fun acc p => (defineSym acc p).2) ts

/-- `len` of an `ExprList`. -/
def exprListLength : ExprList → Nat
  | .nil => 0
  | .cons _ rest => exprListLength rest + 1

/-- The unit of work for one `Compiler.Compile` call: Go's `Compile` is a
single function switching on the node type; the list tasks model its loops
over statement lists, expression lists, and the sorted hash pairs. -/
inductive CTask where
  | expr (e : Expr)
  | stmt (s : Stmt)
  | stmtList (l : StmtList)
  | exprList (l : ExprList)
  | sortedPairs (l : List (Expr × Expr))

/-- `Compiler.Compile`, fuel-indexed.  One fuel unit is consumed per task;
the fuel-exhaustion error is an artifact of the embedding (Go's recursion is
bounded by the finite AST) and is distinct from the two compile errors the
source can produce (`undefined variable …`, `unknown operator …`). -/
def compileGo : Nat → CTask → Compiler → Except String Compiler
  | 0, _, _ => .error "compiler out of fuel"
  | fuel + 1, task, c =>
    match task with
    | .stmtList .nil => .ok c
    | .stmtList (.cons s rest) =>
      match compileGo fuel (.stmt s) c with
      | .error msg => .error msg
      | .ok c1 => compileGo fuel (.stmtList rest) c1
    | .stmt (.exprStmt e) =>
      match compileGo fuel (.expr e) c with
      | .error msg => .error msg
      | .ok c1 => .ok (emit c1 .opPop []).2
    | .stmt (.letStmt name v) =>
      let d := defineSym c.symbolTable name
      match compileGo fuel (.expr v) { c with symbolTable := d.2 } with
      | .error msg => .error msg
      | .ok c1 =>
        if d.1.scope = .globalScope then .ok (emit c1 .opSetGlobal [d.1.index]).2
        else .ok (emit c1 .opSetLocal [d.1.index]).2
    | .stmt (.returnStmt v) =>
      match compileGo fuel (.expr v) c with
      | .error msg => .error msg
      | .ok c1 => .ok (emit c1 .opReturnValue []).2
    | .expr (.intLit _ value) =>
      let a := addConstant c (.integer value)
      .ok (emit a.2 .opConstant [a.1]).2
    | .expr (.boolLit _ value) =>
      if value then .ok (emit c .opTrue []).2 else .ok (emit c .opFalse []).2
    | .expr (.strLit _ value) =>
      let a := addConstant c (.strObj value)
      .ok (emit a.2 .opConstant [a.1]).2
    | .expr (.identE name) =>
      match resolve c.symbolTable name with
      | (none, _) => .error ("undefined variable " ++ name)
      | (some sym, tabs) => .ok (loadSymbol { c with symbolTable := tabs } sym)
    | .expr (.prefixExpr op r) =>
      match compileGo fuel (.expr r) c with
      | .error msg => .error msg
      | .ok c1 =>
        if op = "!" then .ok (emit c1 .opBang []).2
        else if op = "-" then .ok (emit c1 .opMinus []).2
        else .error ("unknown operator " ++ op)
    | .expr (.infixExpr op l r) =>
      if op = "<" then
        match compileGo fuel (.expr r) c with
        | .error msg => .error msg
        | .ok c1 =>
          match compileGo fuel (.expr l) c1 with
          | .error msg => .error msg
          | .ok c2 => .ok (emit c2 .opGreaterThan []).2
      else
        match compileGo fuel (.expr l) c with
        | .error msg => .error msg
        | .ok c1 =>
          match compileGo fuel (.expr r) c1 with
          | .error msg => .error msg
          | .ok c2 =>
            if op = "+" then .ok (emit c2 .opAdd []).2
            else if op = "-" then .ok (emit c2 .opSub []).2
            else if op = "*" then .ok (emit c2 .opMul []).2
            else if op = "/" then .ok (emit c2 .opDiv []).2
            else if op = ">" then .ok (emit c2 .opGreaterThan []).2
            else if op = "==" then .ok (emit c2 .opEqual []).2
            else if op = "!=" then .ok (emit c2 .opNotEqual []).2
            else .error ("unknown operator " ++ op)
    | .expr (.ifExpr cond cons alt) =>
      match compileGo fuel (.expr cond) c with
      | .error msg => .error msg
      | .ok c1 =>
        let j := emit c1 .opJumpNotTruthy [9999]
        match compileGo fuel (.stmtList cons) j.2 with
        | .error msg => .error msg
        | .ok c3 =>
          let c4 := if lastInstructionIs c3 .opPop then removeLastPop c3 else c3
          let jp := emit c4 .opJump [9999]
          let c6 := changeOperand jp.2 j.1 (currentInstructions jp.2).length
          match alt with
          | .noAlt =>
            let c7 := (emit c6 .opNull []).2
            .ok (changeOperand c7 jp.1 (currentInstructions c7).length)
          | .withAlt b =>
            match compileGo fuel (.stmtList b) c6 with
            | .error msg => .error msg
            | .ok c7 =>
              let c8 := if lastInstructionIs c7 .opPop then removeLastPop c7 else c7
              .ok (changeOperand c8 jp.1 (currentInstructions c8).length)
    | .expr (.arrayLit elems) =>
      match compileGo fuel (.exprList elems) c with
      | .error msg => .error msg
      | .ok c1 => .ok (emit c1 .opArray [exprListLength elems]).2
    | .expr (.hashLit pairs) =>
      match compileGo fuel (.sortedPairs (sortPairs pairs)) c with
      | .error msg => .error msg
      | .ok c1 => .ok (emit c1 .opHash [PairList.length pairs * 2]).2
    | .expr (.indexExpr l i) =>
      match compileGo fuel (.expr l) c with
      | .error msg => .error msg
      | .ok c1 =>
        match compileGo fuel (.expr i) c1 with
        | .error msg => .error msg
        | .ok c2 => .ok (emit c2 .opIndex []).2
    | .expr (.funcLit name params body) =>
      let c0 := enterScope c
      let c1 :=
        if name ≠ "" then { c0 with symbolTable := defineFunctionName c0.symbolTable name }
        else c0
      let c2 := { c1 with symbolTable := defineParams c1.symbolTable params }
      match compileGo fuel (.stmtList body) c2 with
      | .error msg => .error msg
      | .ok c3 =>
        let c5 := finalizeFunctionBody c3
        let freeSymbols := (c5.symbolTable.headD ⟨[], 0, []⟩).freeSymbols
        let numLocals := (c5.symbolTable.headD ⟨[], 0, []⟩).numDefinitions
        let ls := leaveScope c5
        let c7 := freeSymbols.foldl loadSymbol ls.2
        let a := addConstant c7 (.compiledFunction ls.1 numLocals params.length)
        .ok (emit a.2 .opClosure [a.1, freeSymbols.length]).2
    | .expr (.callExpr f args) =>
      match compileGo fuel (.expr f) c with
      | .error msg => .error msg
      | .ok c1 =>
        match compileGo fuel (.exprList args) c1 with
        | .error msg => .error msg
        | .ok c2 => .ok (emit c2 .opCall [exprListLength args]).2
    | .exprList .nil => .ok c
    | .exprList (.cons e rest) =>
      match compileGo fuel (.expr e) c with
      | .error msg => .error msg
      | .ok c1 => compileGo fuel (.exprList rest) c1
    | .sortedPairs [] => .ok c
    | .sortedPairs ((k, v) :: rest) =>
      match compileGo fuel (.expr k) c with
      | .error msg => .error msg
      | .ok c1 =>
        match compileGo fuel (.expr v) c1 with
        | .error msg => .error msg
        | .ok c2 => compileGo fuel (.sortedPairs rest) c2

/-- Whether a compile result is a success. -/
def isOkResult : Except String Compiler → Bool
  | .ok _ => true
  | .error _ => false

instance : DecidableEq (Except String Compiler) := fun a b =>
  match a, b with
  | .ok x, .ok y => decidable_of_iff (x = y) (by simp)
  | .error x, .error y => decidable_of_iff (x = y) (by simp)
  | .ok _, .error _ => isFalse (by simp)
  | .error _, .ok _ => isFalse (by simp)

/-- The builtin registration order of `object.Builtins`. -/
def builtinNames : List String := ["len", "first", "rest", "last", "push", "puts"]

/-- The `DefineBuiltin` loop of `compiler.New()`. -/
def defineBuiltinsFrom : Nat → List String → List TableFrame → List TableFrame
  | _, [], ts => ts
  | i, n :: rest, ts => defineBuiltinsFrom (i + 1) rest (defineBuiltin ts i n)

/-- `compiler.New()`: fresh constants, a global symbol table holding the
builtins, one fresh compilation scope. -/
def newCompiler : Compiler :=
  ⟨[], defineBuiltinsFrom 0 builtinNames [⟨[], 0, []⟩], [newCompilationScope]⟩

/-! ## Hash keys (`object` package) -/

/-- The hashable runtime values: `Integer` (an `int64`), `Boolean`,
`String` (its byte sequence). -/
inductive HValue where
  | integer (value : Int)
  | boolean (value : Bool)
  | str (bytes : List Nat)
deriving DecidableEq

/-- `object.HashKey`: a type tag and a `uint64`. -/
structure HashKey where
  type : String
  value : Nat
deriving DecidableEq

/-- The FNV-1a 64-bit offset basis (`hash/fnv`). -/
def fnvOffsetBasis : Nat := 14695981039346656037

/-- The FNV-1a 64-bit prime (`hash/fnv`). -/
def fnvPrime : Nat := 1099511628211

/-- One FNV-1a step: XOR the byte into the state, multiply by the prime
(`uint64` arithmetic, i.e. mod `2^64`). -/
def fnvStep (h b : Nat) : Nat := ((h ^^^ b) * fnvPrime) % (2 ^ 64)

/-- 64-bit FNV-1a over a byte sequence. -/
def fnv64a (bytes : List Nat) : Nat := bytes.foldl fnvStep fnvOffsetBasis

/-- The three `HashKey()` methods: Integer casts its value to `uint64`
(two's complement, i.e. mod `2^64`); Boolean maps to 1/0; String hashes its
bytes with FNV-1a.  (The `h.Write` error branch is dead code — the fnv
hasher never fails — and the memoized `hashKey` cache is transparent.) -/
def hashKey : HValue → HashKey
  | .integer i => ⟨"INTEGER", (i % (2 ^ 64 : Int)).toNat⟩
  | .boolean b => ⟨"BOOLEAN", if b then 1 else 0⟩
  | .str bytes => ⟨"STRING", fnv64a bytes⟩

/-! ## Builtin functions (`object` package) -/

/-- The runtime values the builtins inspect.  (The remaining Go variants —
functions, closures, hashes, … — all take the `default:` branch of every
builtin below exactly as the non-hashable variants here do.) -/
inductive RObj where
  | integer (value : Int)
  | boolean (value : Bool)
  | strObj (value : String)
  | null
  | array (elements : List RObj)
  | errObj (message : String)

/-- `Object.Type()` for the modeled variants. -/
def typeString : RObj → String
  | .integer _ => "INTEGER"
  | .boolean _ => "BOOLEAN"
  | .strObj _ => "STRING"
  | .null => "NULL"
  | .array _ => "ARRAY"
  | .errObj _ => "ERROR"

/-- The `first` builtin.  A Go builtin returns `object.Object`; `none`
models the `nil` return (the VM pushes `Null` for it). -/
def firstB : List RObj → Option RObj
  | [a] =>
    match a with
    | .array elements =>
      if elements.length > 0 then some (elements.headD .null) else none
    | other => some (.errObj ("argument to `first` not supported, got " ++ typeString other))
  | args =>
    some (.errObj ("wrong number of arguments. got=" ++ toString args.length ++ ", want=1"))

/-- The `rest` builtin: a fresh array holding a copy of `Elements[1:]`. -/
def restB : List RObj → Option RObj
  | [a] =>
    match a with
    | .array elements =>
      if elements.length > 0 then some (.array (elements.drop 1)) else none
    | other => some (.errObj ("argument to `rest` not supported, got " ++ typeString other))
  | args =>
    some (.errObj ("wrong number of arguments. got=" ++ toString args.length ++ ", want=1"))

/-- The `last` builtin. -/
def lastB : List RObj → Option RObj
  | [a] =>
    match a with
    | .array elements =>
      if elements.length > 0 then some (elements.getLastD .null) else none
    | other => some (.errObj ("argument to `last` not supported, got " ++ typeString other))
  | args =>
    some (.errObj ("wrong number of arguments. got=" ++ toString args.length ++ ", want=1"))

/-- The `push` builtin: allocate a fresh slice one longer, copy the array's
elements into it, put the pushed value at the end.  The argument array is
not written to. -/
def pushB : List RObj → Option RObj
  | [a, x] =>
    match a with
    | .array elements => some (.array (elements ++ [x]))
    | other => some (.errObj ("argument to `push` not supported, got " ++ typeString other))
  | args =>
    some (.errObj ("wrong number of arguments. got=" ++ toString args.length ++ ", want=2"))

/-- Whether a builtin result is an `Error` value. -/
def isErrResult : Option RObj → Bool
  | some (.errObj _) => true
  | _ => false

/-- Whether a runtime value is an `Array`. -/
def isArrayObj : RObj → Bool
  | .array _ => true
  | _ => false

/-! ## Compiler invariants

The compiler maintains, per scope, that `lastInstruction` points at the
start of the final instruction of the scope's byte stream (when the stream
is nonempty), and that `previousInstruction` points at the instruction
immediately before it.  These are the facts the `replaceLastPopWithReturn`
and `removeLastPop` surgeries rely on. -/

/-- The encoded length of an instruction: one opcode byte plus the operand
widths. -/
def instrLen (op : Opcode) : Nat := 1 + (opWidths op).sum

/-- Scope sanity: the byte stream is empty, or `lastInstruction` names the
final instruction: its position plus its encoded length is the stream
length, and the byte at its position is its opcode byte. -/
def GoodScope (s : CompilationScope) : Prop :=
  s.instructions = [] ∨
    (s.lastInstruction.position + instrLen s.lastInstruction.opcode = s.instructions.length ∧
     s.instructions.getD s.lastInstruction.position 0 = opByte s.lastInstruction.opcode)

/-- After an emit, `previousInstruction` ends exactly where
`lastInstruction` begins (or the last instruction starts the stream). -/
def PrevOk (s : CompilationScope) : Prop :=
  s.lastInstruction.position = 0 ∨
    (s.previousInstruction.position + instrLen s.previousInstruction.opcode =
        s.lastInstruction.position ∧
     (s.instructions.take s.lastInstruction.position).getD
        s.previousInstruction.position 0 =
       opByte s.previousInstruction.opcode)

/-- What one `Compile` call does to the scope stack: it leaves every outer
scope untouched and only ever extends the current scope's byte stream;
and either it leaves the current scope record unchanged, or the last
instruction it recorded starts at or after the old end of the stream. -/
def ScopeExt (c c' : Compiler) : Prop :=
  c'.scopes.tail = c.scopes.tail ∧ c'.scopes.length = c.scopes.length ∧
  (∃ d, currentInstructions c' = currentInstructions c ++ d) ∧
  (currentScope c' = currentScope c ∨
    (currentInstructions c).length ≤ (currentScope c').lastInstruction.position)

/-- The statement tasks. -/
def taskStmt : CTask → Prop
  | .stmt _ => True
  | _ => False

/-- The statement-list tasks. -/
def taskStmtList : CTask → Prop
  | .stmtList _ => True
  | _ => False

/-- The expression tasks. -/
def taskExpr : CTask → Prop
  | .expr _ => True
  | _ => False

/-- The unconditional skeleton of every compile step: the scope stack
keeps its length and every outer scope is untouched. -/
def ScopesShape (c c' : Compiler) : Prop :=
  c'.scopes.tail = c.scopes.tail ∧ c'.scopes.length = c.scopes.length

/-- What every compile step preserves: the scope-stack skeleton, and —
from a sane scope — the stream-extension relation and scope sanity. -/
def StepOk (c c' : Compiler) : Prop :=
  ScopesShape c c' ∧
  (GoodScope (currentScope c) → ScopeExt c c' ∧ GoodScope (currentScope c'))

/-- A compilation chunk that ended with an `emit` whose predecessor also
lies at or after the old end of the stream: the scope's last *and*
previous instruction trackers both point into the newly produced bytes,
and they are adjacent (`PrevOk`).  Statements always end this way. -/
def EmitEnded (c c' : Compiler) : Prop :=
  GoodScope (currentScope c) →
    (PrevOk (currentScope c') ∧
     (currentInstructions c).length ≤ (currentScope c').lastInstruction.position ∧
     (currentInstructions c).length ≤ (currentScope c').previousInstruction.position)

/-- The full postcondition of one `Compile` task. -/
def CompOk (t : CTask) (c c' : Compiler) : Prop :=
  StepOk c c' ∧
  (taskStmt t → EmitEnded c c') ∧
  (taskStmtList t → (currentScope c' = currentScope c ∨ EmitEnded c c')) ∧
  (taskExpr t → GoodScope (currentScope c) →
    (currentInstructions c).length ≤ (currentScope c').lastInstruction.position)

/-! ## Concrete inputs used by witnesses and counterexamples -/

/-- A two-level symbol-table chain: an empty inner scope over a global
scope in which `a` is defined (as by `Define` on the outer table of a
function scope; the outer frame of a chain of length ≥ 2 holds Local
symbols, which is what triggers free-variable promotion). -/
def c4Tables : List TableFrame :=
  [⟨[], 0, []⟩, ⟨[("a", ⟨"a", .localScope, 0⟩)], 1, []⟩]

/-- The hash literal `{"x": 1, x: 2}` in one map-iteration order: a string
key and an identifier key whose `String()` renderings are both `x`
(`StringLiteral.String()` returns the unquoted token literal). -/
def c6PairsA : PairList :=
  .cons (.strLit "x" "x") (.intLit "1" 1) (.cons (.identE "x") (.intLit "2" 2) .nil)

/-- The same hash literal in the other map-iteration order. -/
def c6PairsB : PairList :=
  .cons (.identE "x") (.intLit "2" 2) (.cons (.strLit "x" "x") (.intLit "1" 1) .nil)

/-- `let x = 0; {"x": 1, x: 2};` with the first pair order. -/
def c6ProgA : StmtList :=
  .cons (.letStmt "x" (.intLit "0" 0)) (.cons (.exprStmt (.hashLit c6PairsA)) .nil)

/-- `let x = 0; {"x": 1, x: 2};` with the other pair order. -/
def c6ProgB : StmtList :=
  .cons (.letStmt "x" (.intLit "0" 0)) (.cons (.exprStmt (.hashLit c6PairsB)) .nil)

/-- The hash literal `{"a": 1, "b": 2}` (distinct key renderings). -/
def c6PairsC : PairList :=
  .cons (.strLit "a" "a") (.intLit "1" 1) (.cons (.strLit "b" "b") (.intLit "2" 2) .nil)

/-- The same literal with its pairs recorded in the other order. -/
def c6PairsD : PairList :=
  .cons (.strLit "b" "b") (.intLit "2" 2) (.cons (.strLit "a" "a") (.intLit "1" 1) .nil)

/-- Extract the compiler from a successful compile result (used only to
name concrete intermediate states in witnesses). -/
def forceOkC : Except String Compiler → Compiler
  | .ok c => c
  | .error _ => newCompiler

/-- The state after compiling the right operand `2` of `1 < 2`. -/
def c2w1 : Compiler := forceOkC (compileGo 10 (.expr (.intLit "2" 2)) newCompiler)

/-- The state after then compiling the left operand `1`. -/
def c2w2 : Compiler := forceOkC (compileGo 10 (.expr (.intLit "1" 1)) c2w1)

/-- The body `{ 5 }` of the witness function literal `fn() { 5 }`. -/
def c3Body : StmtList := .cons (.exprStmt (.intLit "5" 5)) .nil

/-- The state after compiling `fn() { 5 }` from a fresh compiler. -/
def c3Result : Compiler :=
  forceOkC (compileGo 12 (.expr (.funcLit "" [] c3Body)) newCompiler)

/-! ## Lemmas: the disassembler loop -/

/-- On a byte whose opcode is undefined, the `String` loop never advances
`i`: no iteration budget suffices. -/
theorem stringLoop_stuck_of_undefined (ins : List Nat) (i : Nat) (h : i < ins.length)
    (hop : lookupDefinition (ins.get ⟨i, h⟩) = none) :
    ∀ fuel out, stringLoop fuel ins i out = none := by
  intro fuel
  induction fuel with
  | zero => intro _; rfl
  | succ fuel ih =>
    intro out
    simp only [stringLoop, dif_pos h, hop]
    exact ih _

/-! ## Lemmas: hash keys -/

/-- `fnv64a` stays below `2^64`. -/
theorem fnv64a_lt (bytes : List Nat) : fnv64a bytes < 2 ^ 64 := by
  have base : fnvOffsetBasis < 2 ^ 64 := by decide
  have step : ∀ (l : List Nat) (h : Nat), h < 2 ^ 64 → l.foldl fnvStep h < 2 ^ 64 := by
    intro l
    induction l with
    | nil => intro h hh; exact hh
    | cons b rest ih =>
      intro h _
      exact ih _ (Nat.mod_lt _ (by decide))
  exact step bytes fnvOffsetBasis base

/-- Distinct byte sequences with the same FNV-1a hash exist: the hash maps
an infinite domain into `2^64` values. -/
theorem fnv64a_collision : ∃ b1 b2 : List Nat, b1 ≠ b2 ∧ fnv64a b1 = fnv64a b2 := by
  have ⟨x, y, hxy, hf⟩ :=
    Finite.exists_ne_map_eq_of_infinite
      (fun n : ℕ => (⟨fnv64a (List.replicate n 0), fnv64a_lt _⟩ : Fin (2 ^ 64)))
  refine ⟨List.replicate x 0, List.replicate y 0, ?_, ?_⟩
  · intro hrep
    exact hxy (by simpa using congrArg List.length hrep)
  · exact congrArg Fin.val hf

/-- The last element of a nonempty list is a member. -/
theorem getLastD_mem_cons : ∀ (l : List RObj) (x d : RObj), ∃ y, y ∈ x :: l ∧ (x :: l).getLastD d = y
  | [], x, d => ⟨x, by simp, rfl⟩
  | a :: l, x, d => by
    obtain ⟨y, hy, he⟩ := getLastD_mem_cons l a x
    exact ⟨y, by simp [List.mem_cons] at hy ⊢; tauto, by simpa using he⟩

/-! ## Claim C1 -/

/-- Claim C1: the spec requires `Instructions.String` to be a total function
that renders undefined opcodes as `ERROR` lines and terminates.  The code
violates this: on the one-byte instruction stream `[30]` (byte 30 is not a
defined opcode) the loop's error branch `continue`s without advancing `i`,
so no number of loop iterations ever returns — `Instructions.String` hangs
instead of producing the `ERROR` line.  This theorem evaluates the code at
the failing input: for every iteration budget the loop is still running. -/
theorem C1_disassembler_diverges_on_undefined_opcode :
    ∀ fuel, instructionsString fuel [30] = none := by
  intro fuel
  exact stringLoop_stuck_of_undefined [30] 0 (by decide) rfl fuel ""

/-! ## Claim C9 -/

/-- Claim C9: `Make` called with an opcode that has no entry in the
definitions table returns the empty byte slice, regardless of the operands
supplied — and conversely, a defined opcode always yields a nonempty
encoding (so the empty result characterizes exactly the undefined
opcodes; no partial instruction is ever produced). -/
theorem C9_make_undefined_opcode_empty (op : Nat) (operands : List Nat) :
    Make op operands = [] ↔ lookupDefinition op = none := by
  cases h : lookupDefinition op with
  | none => simp [Make, h]
  | some d => simp [Make, h]

/-- Witness for C9 at concrete inputs: opcode 30 (first undefined byte) and
opcode 255, with and without operands. -/
theorem C9_witness : Make 30 [1, 2, 3] = [] ∧ Make 255 [] = [] :=
  ⟨(C9_make_undefined_opcode_empty 30 [1, 2, 3]).mpr rfl,
   (C9_make_undefined_opcode_empty 255 []).mpr rfl⟩

/-! ## Claim C8 -/

/-- Claim C8: `push(a, x)` on an Array returns a *new* Array whose elements
are the elements of `a` in order followed by `x`.  The Go code allocates a
fresh slice and copies into it, never writing through `a`; in this pure
embedding the argument is untouched by construction, and the second
conjunct records that the original elements survive unchanged, in order, as
the prefix of the result. -/
theorem C8_push_returns_new_array (elements : List RObj) (x : RObj) :
    pushB [.array elements, x] = some (.array (elements ++ [x])) ∧
    (elements ++ [x]).take elements.length = elements :=
  ⟨rfl, by simp⟩

/-! ## Claim C10 -/

/-- Claim C10: `first`, `rest`, `last` on an Array argument return `nil`
(surfaced as Null by the VM) when the array is empty, never a freshly
constructed Error value — on an Array these builtins only ever return `nil`,
an element of the array, or (for `rest`) the tail array.  An Error value is
constructed exactly for a wrong argument count or a non-Array argument. -/
theorem C10_first_rest_last_empty_array_null :
    (firstB [.array []] = none ∧ restB [.array []] = none ∧ lastB [.array []] = none) ∧
    (∀ elements : List RObj,
      firstB [.array elements] = none ∨
        ∃ e, e ∈ elements ∧ firstB [.array elements] = some e) ∧
    (∀ elements : List RObj,
      restB [.array elements] = none ∨
        restB [.array elements] = some (.array (elements.drop 1))) ∧
    (∀ elements : List RObj,
      lastB [.array elements] = none ∨
        ∃ e, e ∈ elements ∧ lastB [.array elements] = some e) ∧
    (∀ (a b : RObj) (rest2 : List RObj),
      isErrResult (firstB []) = true ∧ isErrResult (firstB (a :: b :: rest2)) = true ∧
      isErrResult (restB []) = true ∧ isErrResult (restB (a :: b :: rest2)) = true ∧
      isErrResult (lastB []) = true ∧ isErrResult (lastB (a :: b :: rest2)) = true) ∧
    (∀ a : RObj, isArrayObj a = false →
      isErrResult (firstB [a]) = true ∧ isErrResult (restB [a]) = true ∧
      isErrResult (lastB [a]) = true) := by
  refine ⟨⟨rfl, rfl, rfl⟩, ?_, ?_, ?_, ?_, ?_⟩
  · intro elements
    cases elements with
    | nil => exact Or.inl rfl
    | cons e es => exact Or.inr ⟨e, by simp, by simp [firstB]⟩
  · intro elements
    cases elements with
    | nil => exact Or.inl rfl
    | cons e es => exact Or.inr (by simp [restB])
  · intro elements
    cases elements with
    | nil => exact Or.inl rfl
    | cons e es =>
      obtain ⟨y, hy, he⟩ := getLastD_mem_cons es e RObj.null
      refine Or.inr ⟨y, hy, ?_⟩
      show (if (e :: es).length > 0 then some ((e :: es).getLastD RObj.null) else none) = some y
      rw [if_pos (by simp)]
      exact congrArg some he
  · intro a b rest2
    exact ⟨rfl, rfl, rfl, rfl, rfl, rfl⟩
  · intro a ha
    cases a with
    | integer v => exact ⟨rfl, rfl, rfl⟩
    | boolean v => exact ⟨rfl, rfl, rfl⟩
    | strObj v => exact ⟨rfl, rfl, rfl⟩
    | null => exact ⟨rfl, rfl, rfl⟩
    | array es => simp [isArrayObj] at ha
    | errObj m => exact ⟨rfl, rfl, rfl⟩

/-- Witness for C10 at a concrete non-Array argument. -/
theorem C10_witness :
    isErrResult (firstB [.integer 3]) = true ∧ isErrResult (restB [.integer 3]) = true ∧
    isErrResult (lastB [.integer 3]) = true :=
  C10_first_rest_last_empty_array_null.2.2.2.2.2 (.integer 3) rfl

/-! ## Claim C5 -/

/-- Counterexample to claim C5 as stated: HashKey equality does *not* imply
value equality.  String keys are hashed with 64-bit FNV-1a, a function from
infinitely many byte sequences into `2^64` hash values, so two distinct
String values share a HashKey. -/
theorem C5_hashKey_not_injective_counterexample :
    ¬ (∀ v w : HValue, hashKey v = hashKey w → v = w) := by
  intro hinj
  obtain ⟨b1, b2, hne, hf⟩ := fnv64a_collision
  have heq : HValue.str b1 = HValue.str b2 := hinj _ _ (by simp [hashKey, hf])
  exact hne (by injection heq)

/-- Claim C5, amended: equal values produce equal HashKeys; the three type
tags are pairwise distinct, so values of different variants never collide;
Integer keys (over the `int64` range) and Boolean keys are injective.  Only
distinct String values can share a HashKey (FNV-1a collision). -/
theorem C5_amended_hashKey_equality :
    (∀ v w : HValue, v = w → hashKey v = hashKey w) ∧
    (∀ i j : Int, -(2 ^ 63) ≤ i → i < 2 ^ 63 → -(2 ^ 63) ≤ j → j < 2 ^ 63 →
      hashKey (.integer i) = hashKey (.integer j) → i = j) ∧
    (∀ b c : Bool, hashKey (.boolean b) = hashKey (.boolean c) → b = c) ∧
    (∀ i b, hashKey (.integer i) ≠ hashKey (.boolean b)) ∧
    (∀ i s, hashKey (.integer i) ≠ hashKey (.str s)) ∧
    (∀ b s, hashKey (.boolean b) ≠ hashKey (.str s)) := by
  refine ⟨fun v w h => h ▸ rfl, ?_, ?_, ?_, ?_, ?_⟩
  · intro i j hi1 hi2 hj1 hj2 h
    simp only [hashKey, HashKey.mk.injEq, true_and] at h
    omega
  · intro b c h
    simp only [hashKey, HashKey.mk.injEq, true_and] at h
    cases b <;> cases c <;> simp_all
  · intro i b h
    have := congrArg HashKey.type h
    simp [hashKey] at this
  · intro i s h
    have := congrArg HashKey.type h
    simp [hashKey] at this
  · intro b s h
    have := congrArg HashKey.type h
    simp [hashKey] at this

/-- Witness for the amended C5: Integer injectivity applied at 5 and 5, and
the cross-type disjointness at concrete values. -/
theorem C5_amended_witness :
    (5 : Int) = 5 ∧ hashKey (.integer 7) ≠ hashKey (.boolean true) :=
  ⟨C5_amended_hashKey_equality.2.1 5 5 (by decide) (by decide) (by decide) (by decide) rfl,
   C5_amended_hashKey_equality.2.2.2.1 7 true⟩

/-! ## Lemmas: the symbol-table store -/

/-- Writing then reading the same key. -/
theorem storeLookup_storeInsert_self (st : List (String × Symbol)) (n : String) (s : Symbol) :
    storeLookup (storeInsert st n s) n = some s := by
  induction st with
  | nil => simp [storeInsert, storeLookup]
  | cons p rest ih =>
    obtain ⟨k, v⟩ := p
    by_cases hk : k = n
    · simp [storeInsert, storeLookup, hk]
    · simp [storeInsert, storeLookup, hk, ih]

/-- Entries after an insert. -/
theorem mem_storeInsert {st : List (String × Symbol)} {n : String} {s : Symbol}
    {p : String × Symbol} (hp : p ∈ storeInsert st n s) : p = (n, s) ∨ p ∈ st := by
  induction st with
  | nil => simpa [storeInsert] using hp
  | cons q rest ih =>
    obtain ⟨k, v⟩ := q
    by_cases hk : k = n
    · simp [storeInsert, hk] at hp
      rcases hp with h | h
      · exact Or.inl (by simp [h])
      · exact Or.inr (by simp [h])
    · simp [storeInsert, hk] at hp
      rcases hp with h | h
      · exact Or.inr (by simp [h])
      · rcases ih h with h2 | h2
        · exact Or.inl h2
        · exact Or.inr (by simp [h2])

/-- A successful lookup is a member. -/
theorem mem_of_storeLookup {st : List (String × Symbol)} {n : String} {s : Symbol}
    (h : storeLookup st n = some s) : (n, s) ∈ st := by
  induction st with
  | nil => simp [storeLookup] at h
  | cons p rest ih =>
    obtain ⟨k, v⟩ := p
    by_cases hk : k = n
    · simp [storeLookup, hk] at h
      simp [hk, h]
    · simp [storeLookup, hk] at h
      simp [ih h]

/-! ## Lemmas: resolve -/

/-- A failed resolve leaves the whole chain untouched. -/
theorem resolve_none_eq {ts ts' : List TableFrame} {name : String}
    (h : resolve ts name = (none, ts')) : ts' = ts := by
  induction ts generalizing ts' with
  | nil =>
    have := congrArg Prod.snd h
    simpa [resolve] using this.symm
  | cons f outer ih =>
    simp only [resolve] at h
    split at h
    · simp at h
    · split at h
      · rename_i outer2 heq
        simp only [Prod.mk.injEq] at h
        have := ih heq
        simp [← h.2, this]
      · split at h <;> simp at h

/-- Under store well-formedness, a successful resolve returns a symbol
carrying the queried name, and preserves well-formedness of the
(possibly mutated) chain. -/
theorem resolve_some_wf {ts ts' : List TableFrame} {name : String} {sym : Symbol}
    (hwf : TablesWF ts) (h : resolve ts name = (some sym, ts')) :
    sym.name = name ∧ TablesWF ts' := by
  induction ts generalizing ts' sym with
  | nil => simp [resolve] at h
  | cons f outer ih =>
    have hwff : FrameWF f := hwf f (by simp)
    have hwfo : TablesWF outer := fun g hg => hwf g (by simp [hg])
    simp only [resolve] at h
    split at h
    · rename_i s0 hsl
      simp only [Prod.mk.injEq, Option.some.injEq] at h
      obtain ⟨h1, h2⟩ := h
      refine ⟨?_, h2 ▸ hwf⟩
      have := hwff _ (mem_of_storeLookup hsl)
      simp only at this
      rw [← h1, this]
    · rename_i hsl
      split at h
      · simp at h
      · rename_i s1 outer2 hres
        obtain ⟨hn1, hwf2⟩ := ih hwfo hres
        split at h
        · rename_i hs
          simp only [Prod.mk.injEq, Option.some.injEq] at h
          obtain ⟨h1, h2⟩ := h
          refine ⟨h1 ▸ hn1, ?_⟩
          rw [← h2]
          intro g hg
          rcases List.mem_cons.mp hg with hg | hg
          · exact hg ▸ hwff
          · exact hwf2 g hg
        · rename_i hs
          simp only [Prod.mk.injEq, Option.some.injEq] at h
          obtain ⟨h1, h2⟩ := h
          constructor
          · rw [← h1]; simpa using hn1
          · rw [← h2]
            intro g hg
            rcases List.mem_cons.mp hg with hg | hg
            · subst hg
              intro p hp
              rcases mem_storeInsert hp with hp | hp
              · simp [hp]
              · exact hwff p hp
            · exact hwf2 g hg

/-- Resolving a second time returns the same symbol and the same (already
mutated) chain: resolve is idempotent on well-formed tables. -/
theorem resolve_idem {ts : List TableFrame} {name : String} (hwf : TablesWF ts) :
    resolve (resolve ts name).2 name = resolve ts name := by
  induction ts with
  | nil => rfl
  | cons f outer ih =>
    have hwfo : TablesWF outer := fun g hg => hwf g (by simp [hg])
    cases hsl : storeLookup f.store name with
    | some s =>
      have e1 : resolve (f :: outer) name = (some s, f :: outer) := by
        simp [resolve, hsl]
      rw [e1]; exact e1
    | none =>
      rcases hres : resolve outer name with ⟨r, outer2⟩
      cases r with
      | none =>
        have houter : outer2 = outer := resolve_none_eq hres
        rw [houter] at hres
        have e1 : resolve (f :: outer) name = (none, f :: outer) := by
          simp [resolve, hsl, hres]
        rw [e1]; exact e1
      | some s1 =>
        obtain ⟨hn1, hwf2⟩ := resolve_some_wf hwfo hres
        have hres2 : resolve outer2 name = (some s1, outer2) := by
          have := ih hwfo
          rw [hres] at this
          exact this
        by_cases hs : s1.scope = SymbolScope.globalScope ∨ s1.scope = SymbolScope.builtinScope
        · have e1 : resolve (f :: outer) name = (some s1, f :: outer2) := by
            simp [resolve, hsl, hres, hs]
          have e2 : resolve (f :: outer2) name = (some s1, f :: outer2) := by
            simp [resolve, hsl, hres2, hs]
          rw [e1]; exact e2
        · have e1 : resolve (f :: outer) name =
              (some (Symbol.mk s1.name .freeScope f.freeSymbols.length),
               TableFrame.mk
                 (storeInsert f.store s1.name
                   (Symbol.mk s1.name .freeScope f.freeSymbols.length))
                 f.numDefinitions (f.freeSymbols ++ [s1]) :: outer2) := by
            simp [resolve, hsl, hres, hs]
          have e2 : resolve
              (TableFrame.mk
                 (storeInsert f.store s1.name
                   (Symbol.mk s1.name .freeScope f.freeSymbols.length))
                 f.numDefinitions (f.freeSymbols ++ [s1]) :: outer2) name =
              (some (Symbol.mk s1.name .freeScope f.freeSymbols.length),
               TableFrame.mk
                 (storeInsert f.store s1.name
                   (Symbol.mk s1.name .freeScope f.freeSymbols.length))
                 f.numDefinitions (f.freeSymbols ++ [s1]) :: outer2) := by
            have hlook : storeLookup (storeInsert f.store s1.name
                (Symbol.mk s1.name .freeScope f.freeSymbols.length)) name =
                some (Symbol.mk s1.name .freeScope f.freeSymbols.length) := by
              rw [← hn1]
              exact storeLookup_storeInsert_self _ _ _
            simp [resolve, hlook]
          rw [e1]; exact e2

/-! ## Claim C4 -/

/-- Claim C4: in any well-formed symbol-table chain, `Resolve` is
deterministic and idempotent with respect to free-variable promotion.  The
second conjunct is the promotion shape: when the name is absent locally and
the enclosing chain yields a symbol whose scope is neither Global nor
Builtin, the original symbol is appended to `FreeSymbols` and a Free symbol
with index `len(FreeSymbols) - 1` (the pre-promotion length) is stored and
returned.  The first conjunct shows a second resolution of the same name
returns exactly the same symbol — in particular the same Free index — and
mutates nothing further. -/
theorem C4_resolve_free_promotion_idempotent (ts : List TableFrame) (name : String)
    (hwf : TablesWF ts) :
    (resolve (resolve ts name).2 name = resolve ts name) ∧
    (∀ (f : TableFrame) (outer outer' : List TableFrame) (sym : Symbol),
      ts = f :: outer →
      storeLookup f.store name = none →
      resolve outer name = (some sym, outer') →
      sym.scope ≠ SymbolScope.globalScope →
      sym.scope ≠ SymbolScope.builtinScope →
      resolve ts name =
        (some (Symbol.mk sym.name .freeScope f.freeSymbols.length),
         TableFrame.mk
           (storeInsert f.store sym.name (Symbol.mk sym.name .freeScope f.freeSymbols.length))
           f.numDefinitions (f.freeSymbols ++ [sym]) :: outer')) := by
  refine ⟨resolve_idem hwf, ?_⟩
  intro f outer outer' sym hts hsl hres h1 h2
  subst hts
  have hs : ¬(sym.scope = SymbolScope.globalScope ∨ sym.scope = SymbolScope.builtinScope) := by
    simp [h1, h2]
  simp [resolve, hsl, hres, hs]

/-- Witness for C4: the concrete two-level chain `c4Tables`, where resolving
`a` promotes the outer Local symbol to a Free symbol; the theorem applied
there gives idempotence of the second resolution. -/
theorem C4_witness :
    TablesWF c4Tables ∧
    resolve (resolve c4Tables "a").2 "a" = resolve c4Tables "a" :=
  ⟨by decide, (C4_resolve_free_promotion_idempotent c4Tables "a" (by decide)).1⟩

/-! ## Lemmas: byte-wise string order -/

theorem char_eq_of_toNat_eq {a b : Char} (h : a.toNat = b.toNat) : a = b :=
  Char.eq_of_val_eq (UInt32.eq_of_toBitVec_eq (BitVec.eq_of_toNat_eq h))

theorem charsLE_cons (x y : Char) (xs ys : List Char) :
    charsLE (x :: xs) (y :: ys) =
      (if x.toNat < y.toNat then true
       else if y.toNat < x.toNat then false
       else charsLE xs ys) := rfl

theorem charsLE_total (a b : List Char) : charsLE a b = true ∨ charsLE b a = true := by
  induction a generalizing b with
  | nil => left; rfl
  | cons x xs ih =>
    cases b with
    | nil => right; rfl
    | cons y ys =>
      rcases Nat.lt_trichotomy x.toNat y.toNat with h | h | h
      · left; rw [charsLE_cons, if_pos h]
      · rcases ih ys with h2 | h2
        · left
          rw [charsLE_cons, if_neg (by omega), if_neg (by omega)]
          exact h2
        · right
          rw [charsLE_cons, if_neg (by omega), if_neg (by omega)]
          exact h2
      · right; rw [charsLE_cons, if_pos h]

theorem charsLE_trans {a b c : List Char} (hab : charsLE a b = true)
    (hbc : charsLE b c = true) : charsLE a c = true := by
  induction a generalizing b c with
  | nil => rfl
  | cons x xs ih =>
    cases b with
    | nil => exact absurd hab (by simp [charsLE])
    | cons y ys =>
      cases c with
      | nil => exact absurd hbc (by simp [charsLE])
      | cons z zs =>
        rw [charsLE_cons] at hab hbc ⊢
        rcases Nat.lt_trichotomy x.toNat y.toNat with h1 | h1 | h1
        · rcases Nat.lt_trichotomy y.toNat z.toNat with h2 | h2 | h2
          · rw [if_pos (by omega)]
          · rw [if_pos (by omega)]
          · rw [if_neg (by omega), if_pos h2] at hbc
            exact absurd hbc (by simp)
        · rw [if_neg (by omega), if_neg (by omega)] at hab
          rcases Nat.lt_trichotomy y.toNat z.toNat with h2 | h2 | h2
          · rw [if_pos (by omega)]
          · rw [if_neg (by omega), if_neg (by omega)] at hbc ⊢
            exact ih hab hbc
          · rw [if_neg (by omega), if_pos h2] at hbc
            exact absurd hbc (by simp)
        · rw [if_neg (by omega), if_pos h1] at hab
          exact absurd hab (by simp)

theorem charsLE_antisymm {a b : List Char} (hab : charsLE a b = true)
    (hba : charsLE b a = true) : a = b := by
  induction a generalizing b with
  | nil =>
    cases b with
    | nil => rfl
    | cons y ys => exact absurd hba (by simp [charsLE])
  | cons x xs ih =>
    cases b with
    | nil => exact absurd hab (by simp [charsLE])
    | cons y ys =>
      rw [charsLE_cons] at hab hba
      rcases Nat.lt_trichotomy x.toNat y.toNat with h1 | h1 | h1
      · rw [if_neg (by omega), if_pos h1] at hba
        exact absurd hba (by simp)
      · rw [if_neg (by omega), if_neg (by omega)] at hab hba
        rw [char_eq_of_toNat_eq h1, ih hab hba]
      · rw [if_neg (by omega), if_pos h1] at hab
        exact absurd hab (by simp)

theorem strLE_antisymm {a b : String} (hab : strLE a b = true) (hba : strLE b a = true) :
    a = b := by
  cases a with
  | mk da =>
    cases b with
    | mk db => exact congrArg String.mk (charsLE_antisymm hab hba)

/-! ## Lemmas: hash-pair sorting -/

theorem sortPairs_perm (pl : PairList) : (sortPairs pl).Perm pl.toList :=
  List.perm_insertionSort _ _

theorem sortPairs_sorted (pl : PairList) : List.Sorted pairLE (sortPairs pl) := by
  haveI : IsTotal (Expr × Expr) pairLE :=
    ⟨fun a b => charsLE_total (keyStr a).data (keyStr b).data⟩
  haveI : IsTrans (Expr × Expr) pairLE :=
    ⟨fun _ _ _ hab hbc => charsLE_trans hab hbc⟩
  exact List.sorted_insertionSort _ _

/-- Two sorted pair lists that are permutations of each other and have
pairwise-distinct key renderings are equal. -/
theorem sorted_perm_nodup_eq : ∀ {l1 l2 : List (Expr × Expr)}, l1.Perm l2 →
    l1.Sorted pairLE → l2.Sorted pairLE → (l1.map keyStr).Nodup → l1 = l2 := by
  intro l1
  induction l1 with
  | nil =>
    intro l2 hp _ _ _
    exact (hp.symm.eq_nil).symm
  | cons a l1 ih =>
    intro l2 hp hs1 hs2 hnd
    cases l2 with
    | nil => exact absurd hp.eq_nil (by simp)
    | cons b l2 =>
      obtain ⟨hs1a, hs1t⟩ := List.sorted_cons.mp hs1
      obtain ⟨hs2a, hs2t⟩ := List.sorted_cons.mp hs2
      simp only [List.map_cons, List.nodup_cons] at hnd
      obtain ⟨hka, hndt⟩ := hnd
      have hab : a = b := by
        have ha2 : a ∈ b :: l2 := hp.subset (by simp)
        rcases List.mem_cons.mp ha2 with h | h
        · exact h
        · have hb1 : b ∈ a :: l1 := hp.symm.subset (by simp)
          rcases List.mem_cons.mp hb1 with h2 | h2
          · exact h2.symm
          · have h3 : pairLE a b := hs1a b h2
            have h4 : pairLE b a := hs2a a h
            have hk : keyStr a = keyStr b := strLE_antisymm h3 h4
            exact absurd (hk ▸ List.mem_map_of_mem keyStr h2) hka
      subst hab
      have hp2 : l1.Perm l2 := hp.cons_inv
      rw [ih hp2 hs1t hs2t hndt]

/-- Permuted pair lists with pairwise-distinct key renderings sort to the
same list and have the same length. -/
theorem sortPairs_eq_of_perm {pl1 pl2 : PairList} (hper : pl1.toList.Perm pl2.toList)
    (hnd : (pl1.toList.map keyStr).Nodup) :
    sortPairs pl1 = sortPairs pl2 ∧ PairList.length pl1 = PairList.length pl2 := by
  constructor
  · have hp : (sortPairs pl1).Perm (sortPairs pl2) :=
      ((sortPairs_perm pl1).trans hper).trans (sortPairs_perm pl2).symm
    have hnd1 : ((sortPairs pl1).map keyStr).Nodup :=
      (((sortPairs_perm pl1).map keyStr).nodup_iff).mpr hnd
    exact sorted_perm_nodup_eq hp (sortPairs_sorted pl1) (sortPairs_sorted pl2) hnd1
  · exact hper.length_eq

/-! ## Claim C6 -/

/-- Counterexample to claim C6 as stated: two semantically equal hash
literal ASTs need not compile to byte-identical instruction sequences.  A
`PairList` records the (arbitrary) iteration order of the Go AST's pair
map, so `c6PairsA` and `c6PairsB` — permutations of each other — are the
same hash literal `{"x": 1, x: 2}`.  Its two keys are distinct AST nodes
with the *same* string rendering `x`, so sorting by rendering does not
determine their order, and the two compilations of `let x = 0;
{"x": 1, x: 2};` produce different constant pools and instruction bytes. -/
theorem C6_hash_literal_bytecode_counterexample :
    c6PairsA.toList.Perm c6PairsB.toList ∧
    compileGo 20 (.stmtList c6ProgA) newCompiler ≠
      compileGo 20 (.stmtList c6ProgB) newCompiler :=
  ⟨List.Perm.swap _ _ _, by decide⟩

/-- Claim C6, amended: the compiler emits a hash literal's key/value pairs
sorted ascending by the string rendering of the key (then `OpHash 2K`), and
compilation is independent of the map iteration order **provided the key
renderings are pairwise distinct** — permuted pair lists with distinct
renderings compile byte-identically.  (With duplicate renderings the order
of the tied pairs, and hence the bytecode, can differ; see the
counterexample.) -/
theorem C6_amended_hash_literal_sorted_deterministic :
    (∀ pl : PairList, List.Sorted pairLE (sortPairs pl) ∧ (sortPairs pl).Perm pl.toList) ∧
    (∀ (fuel : Nat) (pl : PairList) (c : Compiler),
      compileGo (fuel + 1) (.expr (.hashLit pl)) c =
        match compileGo fuel (.sortedPairs (sortPairs pl)) c with
        | Except.error msg => Except.error msg
        | Except.ok c1 => Except.ok (emit c1 .opHash [PairList.length pl * 2]).2) ∧
    (∀ pl1 pl2 : PairList, pl1.toList.Perm pl2.toList →
      (pl1.toList.map keyStr).Nodup →
      ∀ (fuel : Nat) (c : Compiler),
        compileGo fuel (.expr (.hashLit pl1)) c = compileGo fuel (.expr (.hashLit pl2)) c) := by
  refine ⟨fun pl => ⟨sortPairs_sorted pl, sortPairs_perm pl⟩, fun _ _ _ => rfl, ?_⟩
  intro pl1 pl2 hper hnd fuel c
  obtain ⟨hsort, hlen⟩ := sortPairs_eq_of_perm hper hnd
  cases fuel with
  | zero => rfl
  | succ fuel =>
    show (match compileGo fuel (.sortedPairs (sortPairs pl1)) c with
          | Except.error msg => Except.error msg
          | Except.ok c1 => Except.ok (emit c1 .opHash [PairList.length pl1 * 2]).2) =
         (match compileGo fuel (.sortedPairs (sortPairs pl2)) c with
          | Except.error msg => Except.error msg
          | Except.ok c1 => Except.ok (emit c1 .opHash [PairList.length pl2 * 2]).2)
    rw [hsort, hlen]

/-- Witness for the amended C6: the hash literal `{"a": 1, "b": 2}` in its
two iteration orders compiles to the same result. -/
theorem C6_amended_witness :
    compileGo 20 (.expr (.hashLit c6PairsC)) newCompiler =
      compileGo 20 (.expr (.hashLit c6PairsD)) newCompiler :=
  C6_amended_hash_literal_sorted_deterministic.2.2 c6PairsC c6PairsD
    (List.Perm.swap _ _ _) (by decide) 20 newCompiler

/-! ## Claim C7 -/

/-- Claim C7: a let statement `Define`s the bound name *before* compiling
the value expression (first conjunct: the compilation of `let name = v` is
exactly `Define`, then the value against the extended table, then
`OpSetGlobal idx` when the defined symbol is Global and `OpSetLocal idx`
otherwise).  Consequently the name resolves successfully inside its own
initializer: compiling `let name = name;` succeeds in every compiler state
whose symbol-table chain is nonempty (second conjunct). -/
theorem C7_let_defines_before_value :
    (∀ (fuel : Nat) (name : String) (v : Expr) (c : Compiler),
      compileGo (fuel + 1) (.stmt (.letStmt name v)) c =
        match compileGo fuel (.expr v)
            { c with symbolTable := (defineSym c.symbolTable name).2 } with
        | Except.error msg => Except.error msg
        | Except.ok c1 =>
          if (defineSym c.symbolTable name).1.scope = SymbolScope.globalScope then
            Except.ok (emit c1 .opSetGlobal [(defineSym c.symbolTable name).1.index]).2
          else Except.ok (emit c1 .opSetLocal [(defineSym c.symbolTable name).1.index]).2) ∧
    (∀ (fuel : Nat) (name : String) (consts : List Obj) (f : TableFrame)
        (fs : List TableFrame) (scs : List CompilationScope),
      isOkResult (compileGo (fuel + 2) (.stmt (.letStmt name (.identE name)))
        (Compiler.mk consts (f :: fs) scs)) = true) := by
  refine ⟨fun _ _ _ _ => rfl, ?_⟩
  intro fuel name consts f fs scs
  have hsl : storeLookup
      (storeInsert f.store name
        (Symbol.mk name (if fs.isEmpty then SymbolScope.globalScope else SymbolScope.localScope)
          f.numDefinitions)) name =
      some (Symbol.mk name
        (if fs.isEmpty then SymbolScope.globalScope else SymbolScope.localScope)
        f.numDefinitions) :=
    storeLookup_storeInsert_self _ _ _
  simp only [compileGo, defineSym, resolve, hsl, loadSymbol]
  cases hse : fs.isEmpty with
  | true => simp [hse, isOkResult]
  | false => simp [hse, isOkResult]

/-! ## Lemmas: instruction encoding -/

theorem Make_opByte (op : Opcode) (ops : List Nat) :
    Make (opByte op) ops = opByte op :: writeOperands (opWidths op) ops := by
  cases op <;> rfl

theorem writeOperands_length (ws : List Nat) : ∀ vs, (writeOperands ws vs).length = ws.sum := by
  induction ws with
  | nil => intro vs; rfl
  | cons w ws ih =>
    intro vs
    cases vs with
    | nil => simp [writeOperands, ih]
    | cons v vs =>
      simp only [writeOperands, List.length_append, List.sum_cons, ih]
      split_ifs with h1 h2
      · subst h1; simp
      · subst h2; simp
      · simp

theorem Make_length (op : Opcode) (ops : List Nat) :
    (Make (opByte op) ops).length = instrLen op := by
  rw [Make_opByte, instrLen]
  simp [writeOperands_length]
  omega

theorem Make_getD_zero (op : Opcode) (ops : List Nat) (d : Nat) :
    (Make (opByte op) ops).getD 0 d = opByte op := by
  rw [Make_opByte]; rfl

theorem instrLen_pos (op : Opcode) : 0 < instrLen op := by
  simp [instrLen]

/-! ## Lemmas: in-place byte overwriting -/

theorem overwriteAt_noOps (l : List Nat) (p : Nat) : overwriteAt l p [] = l := by
  cases l <;> cases p <;> rfl

theorem overwriteAt_cons_zero (b x : Nat) (rest ns : List Nat) :
    overwriteAt (b :: rest) 0 (x :: ns) = x :: overwriteAt rest 0 ns := rfl

theorem overwriteAt_cons_succ (b : Nat) (rest : List Nat) (p : Nat) (x : Nat) (ns : List Nat) :
    overwriteAt (b :: rest) (p + 1) (x :: ns) = b :: overwriteAt rest p (x :: ns) := rfl

theorem overwriteAt_length (l : List Nat) : ∀ (p : Nat) (n : List Nat),
    (overwriteAt l p n).length = l.length := by
  induction l with
  | nil => intro p n; cases n <;> cases p <;> rfl
  | cons b rest ih =>
    intro p n
    cases n with
    | nil => rw [overwriteAt_noOps]
    | cons x ns =>
      cases p with
      | zero => rw [overwriteAt_cons_zero]; simp [ih 0 ns]
      | succ p => rw [overwriteAt_cons_succ]; simp [ih p (x :: ns)]

theorem getD_overwriteAt_lt (l : List Nat) : ∀ (p : Nat) (n : List Nat) (q d : Nat), q < p →
    (overwriteAt l p n).getD q d = l.getD q d := by
  induction l with
  | nil => intro p n q d _; cases n <;> cases p <;> rfl
  | cons b rest ih =>
    intro p n q d hq
    cases n with
    | nil => rw [overwriteAt_noOps]
    | cons x ns =>
      cases p with
      | zero => omega
      | succ p =>
        rw [overwriteAt_cons_succ]
        cases q with
        | zero => rfl
        | succ q =>
          rw [List.getD_cons_succ, List.getD_cons_succ]
          exact ih p (x :: ns) q d (by omega)

theorem getD_overwriteAt_ge (l : List Nat) : ∀ (p : Nat) (n : List Nat) (q d : Nat),
    p + n.length ≤ q → (overwriteAt l p n).getD q d = l.getD q d := by
  induction l with
  | nil => intro p n q d _; cases n <;> cases p <;> rfl
  | cons b rest ih =>
    intro p n q d hq
    cases n with
    | nil => rw [overwriteAt_noOps]
    | cons x ns =>
      cases p with
      | zero =>
        cases q with
        | zero => simp at hq
        | succ q =>
          rw [overwriteAt_cons_zero, List.getD_cons_succ, List.getD_cons_succ]
          exact ih 0 ns q d (by simp at hq; omega)
      | succ p =>
        cases q with
        | zero => omega
        | succ q =>
          rw [overwriteAt_cons_succ, List.getD_cons_succ, List.getD_cons_succ]
          exact ih p (x :: ns) q d (by simp at hq ⊢; omega)

theorem getD_overwriteAt_self (l : List Nat) : ∀ (p : Nat) (b : Nat) (bs : List Nat) (d : Nat),
    p < l.length → (overwriteAt l p (b :: bs)).getD p d = b := by
  induction l with
  | nil => intro p b bs d h; simp at h
  | cons y rest ih =>
    intro p b bs d h
    cases p with
    | zero => rw [overwriteAt_cons_zero]; rfl
    | succ p =>
      rw [overwriteAt_cons_succ, List.getD_cons_succ]
      exact ih p b bs d (by simp at h; omega)

theorem take_overwriteAt (l : List Nat) : ∀ (p : Nat) (n : List Nat) (q : Nat), q ≤ p →
    (overwriteAt l p n).take q = l.take q := by
  induction l with
  | nil => intro p n q _; cases n <;> cases p <;> rfl
  | cons b rest ih =>
    intro p n q hq
    cases n with
    | nil => rw [overwriteAt_noOps]
    | cons x ns =>
      cases p with
      | zero =>
        cases q with
        | zero => rfl
        | succ q => omega
      | succ p =>
        cases q with
        | zero => rfl
        | succ q =>
          rw [overwriteAt_cons_succ, List.take_succ_cons, List.take_succ_cons]
          rw [ih p (x :: ns) q (by omega)]

theorem getLast?_eq_of_getD (l : List Nat) (b : Nat) : ∀ (p : Nat), p + 1 = l.length →
    l.getD p 0 = b → l.getLast? = some b := by
  induction l with
  | nil => intro p h _; simp at h
  | cons y rest ih =>
    intro p h hb
    cases p with
    | zero =>
      cases rest with
      | nil =>
        simp only [List.getD_cons_zero] at hb
        simp [hb]
      | cons z zs => simp at h
    | succ p =>
      simp only [List.getD_cons_succ] at hb
      have h2 := ih p (by simp at h; omega) hb
      cases rest with
      | nil => simp at h
      | cons z zs => simpa [List.getLast?_cons_cons] using h2

theorem getLast?_overwriteAt_last (l : List Nat) (b : Nat) (p : Nat) (h : p + 1 = l.length) :
    (overwriteAt l p [b]).getLast? = some b := by
  apply getLast?_eq_of_getD _ _ p
  · rw [overwriteAt_length]; exact h
  · exact getD_overwriteAt_self l p b [] 0 (by omega)

/-! ## Lemmas: scope surgery shapes -/

theorem scopes_eq_cons (c : Compiler) (hne : c.scopes ≠ []) :
    c.scopes = currentScope c :: c.scopes.tail := by
  cases hc : c.scopes with
  | nil => exact absurd hc hne
  | cons a t => simp [currentScope, hc]

theorem setCurrentScope_tail (c : Compiler) (s : CompilationScope) :
    (setCurrentScope c s).scopes.tail = c.scopes.tail := by
  cases hc : c.scopes <;> simp [setCurrentScope, hc]

theorem setCurrentScope_length (c : Compiler) (s : CompilationScope) :
    (setCurrentScope c s).scopes.length = c.scopes.length := by
  cases hc : c.scopes <;> simp [setCurrentScope, hc]

theorem currentScope_setCurrentScope (c : Compiler) (s : CompilationScope)
    (hne : c.scopes ≠ []) : currentScope (setCurrentScope c s) = s := by
  cases hc : c.scopes with
  | nil => exact absurd hc hne
  | cons a t => simp [setCurrentScope, currentScope, hc]

theorem emit_fst (c : Compiler) (op : Opcode) (ops : List Nat) :
    (emit c op ops).1 = (currentInstructions c).length := rfl

theorem emit_constants (c : Compiler) (op : Opcode) (ops : List Nat) :
    (emit c op ops).2.constants = c.constants := by
  simp [emit, addInstruction, setLastInstruction, setCurrentScope]

theorem emit_symbolTable (c : Compiler) (op : Opcode) (ops : List Nat) :
    (emit c op ops).2.symbolTable = c.symbolTable := by
  simp [emit, addInstruction, setLastInstruction, setCurrentScope]

theorem emit_tail (c : Compiler) (op : Opcode) (ops : List Nat) :
    (emit c op ops).2.scopes.tail = c.scopes.tail := by
  simp [emit, setLastInstruction, setCurrentScope_tail, addInstruction]

theorem emit_length (c : Compiler) (op : Opcode) (ops : List Nat) :
    (emit c op ops).2.scopes.length = c.scopes.length := by
  simp [emit, setLastInstruction, setCurrentScope_length, addInstruction]

theorem emit_currentScope (c : Compiler) (op : Opcode) (ops : List Nat) (hne : c.scopes ≠ []) :
    currentScope (emit c op ops).2 =
      CompilationScope.mk (currentInstructions c ++ Make (opByte op) ops)
        (EmittedInstruction.mk op (currentInstructions c).length)
        (currentScope c).lastInstruction := by
  cases hc : c.scopes with
  | nil => exact absurd hc hne
  | cons a t =>
    simp [emit, addInstruction, setLastInstruction, setCurrentScope, currentScope,
      currentInstructions, hc]

theorem removeLastPop_currentScope (c : Compiler) (hne : c.scopes ≠ []) :
    currentScope (removeLastPop c) =
      CompilationScope.mk
        ((currentInstructions c).take (currentScope c).lastInstruction.position)
        (currentScope c).previousInstruction (currentScope c).previousInstruction := by
  cases hc : c.scopes with
  | nil => exact absurd hc hne
  | cons a t =>
    simp [removeLastPop, setCurrentScope, currentScope, currentInstructions, hc]

theorem removeLastPop_tail (c : Compiler) :
    (removeLastPop c).scopes.tail = c.scopes.tail := setCurrentScope_tail _ _

theorem removeLastPop_length (c : Compiler) :
    (removeLastPop c).scopes.length = c.scopes.length := setCurrentScope_length _ _

theorem removeLastPop_constants (c : Compiler) :
    (removeLastPop c).constants = c.constants := rfl

theorem removeLastPop_symbolTable (c : Compiler) :
    (removeLastPop c).symbolTable = c.symbolTable := rfl

theorem changeOperand_currentScope (c : Compiler) (pos operand : Nat) (hne : c.scopes ≠ []) :
    currentScope (changeOperand c pos operand) =
      CompilationScope.mk
        (overwriteAt (currentInstructions c) pos
          (Make ((currentInstructions c).getD pos 0) [operand]))
        (currentScope c).lastInstruction (currentScope c).previousInstruction := by
  cases hc : c.scopes with
  | nil => exact absurd hc hne
  | cons a t =>
    simp [changeOperand, replaceInstruction, setCurrentScope, currentScope,
      currentInstructions, hc]

theorem changeOperand_tail (c : Compiler) (pos operand : Nat) :
    (changeOperand c pos operand).scopes.tail = c.scopes.tail := setCurrentScope_tail _ _

theorem changeOperand_length (c : Compiler) (pos operand : Nat) :
    (changeOperand c pos operand).scopes.length = c.scopes.length := setCurrentScope_length _ _

theorem changeOperand_constants (c : Compiler) (pos operand : Nat) :
    (changeOperand c pos operand).constants = c.constants := rfl

theorem changeOperand_symbolTable (c : Compiler) (pos operand : Nat) :
    (changeOperand c pos operand).symbolTable = c.symbolTable := rfl

theorem replaceLastPopWithReturn_currentScope (c : Compiler) (hne : c.scopes ≠ []) :
    currentScope (replaceLastPopWithReturn c) =
      CompilationScope.mk
        (overwriteAt (currentInstructions c) (currentScope c).lastInstruction.position
          [opByte .opReturnValue])
        (EmittedInstruction.mk .opReturnValue (currentScope c).lastInstruction.position)
        (currentScope c).previousInstruction := by
  cases hc : c.scopes with
  | nil => exact absurd hc hne
  | cons a t =>
    simp [replaceLastPopWithReturn, replaceInstruction, setCurrentScope, currentScope,
      currentInstructions, hc]
    rfl

theorem replaceLastPopWithReturn_tail (c : Compiler) :
    (replaceLastPopWithReturn c).scopes.tail = c.scopes.tail := by
  simp [replaceLastPopWithReturn, setCurrentScope_tail, replaceInstruction]

theorem replaceLastPopWithReturn_length (c : Compiler) :
    (replaceLastPopWithReturn c).scopes.length = c.scopes.length := by
  simp [replaceLastPopWithReturn, setCurrentScope_length, replaceInstruction]

theorem replaceLastPopWithReturn_constants (c : Compiler) :
    (replaceLastPopWithReturn c).constants = c.constants := rfl

theorem replaceLastPopWithReturn_symbolTable (c : Compiler) :
    (replaceLastPopWithReturn c).symbolTable = c.symbolTable := rfl

theorem loadSymbol_eq_emit (c : Compiler) (s : Symbol) :
    ∃ op ops, loadSymbol c s = (emit c op ops).2 := by
  cases hs : s.scope <;> simp [loadSymbol, hs] <;> exact ⟨_, _, rfl⟩

/-! ## Lemmas: the scope-extension relation -/

theorem scopeExt_rfl (c : Compiler) : ScopeExt c c :=
  ⟨rfl, rfl, ⟨[], by simp⟩, Or.inl rfl⟩

theorem scopeExt_trans {c c1 c2 : Compiler} (h1 : ScopeExt c c1) (h2 : ScopeExt c1 c2) :
    ScopeExt c c2 := by
  obtain ⟨ht1, hl1, ⟨d1, hd1⟩, ho1⟩ := h1
  obtain ⟨ht2, hl2, ⟨d2, hd2⟩, ho2⟩ := h2
  refine ⟨ht2.trans ht1, hl2.trans hl1, ⟨d1 ++ d2, by rw [hd2, hd1, List.append_assoc]⟩, ?_⟩
  rcases ho1 with ho1 | ho1
  · rcases ho2 with ho2 | ho2
    · exact Or.inl (ho2.trans ho1)
    · refine Or.inr ?_
      have hll : (currentInstructions c1).length = (currentInstructions c).length := by
        simp [currentInstructions, ho1]
      omega
  · rcases ho2 with ho2 | ho2
    · exact Or.inr (by rw [ho2]; exact ho1)
    · refine Or.inr ?_
      have hll : (currentInstructions c).length ≤ (currentInstructions c1).length := by
        rw [hd1]; simp
      omega

theorem scopeExt_emit (c : Compiler) (op : Opcode) (ops : List Nat) :
    ScopeExt c (emit c op ops).2 := by
  by_cases hne : c.scopes = []
  · have h1 : (emit c op ops).2.scopes = [] := by
      have := emit_length c op ops
      rw [hne] at this
      exact List.length_eq_zero.mp (by simp [this])
    refine ⟨?_, ?_, ⟨[], ?_⟩, Or.inl ?_⟩ <;>
      simp [h1, hne, currentScope, currentInstructions]
  · have hs := emit_currentScope c op ops hne
    refine ⟨emit_tail c op ops, emit_length c op ops,
      ⟨Make (opByte op) ops, by simp [currentInstructions, hs]⟩, Or.inr ?_⟩
    rw [hs]

theorem scopeExt_loadSymbol (c : Compiler) (s : Symbol) : ScopeExt c (loadSymbol c s) := by
  obtain ⟨op, ops, h⟩ := loadSymbol_eq_emit c s
  rw [h]
  exact scopeExt_emit c op ops

theorem scopeExt_loadSymbols (syms : List Symbol) : ∀ c : Compiler,
    ScopeExt c (syms.foldl loadSymbol c) := by
  induction syms with
  | nil => intro c; exact scopeExt_rfl c
  | cons s rest ih =>
    intro c
    exact scopeExt_trans (scopeExt_loadSymbol c s) (ih (loadSymbol c s))

/-! ## Lemmas: invariant steps -/

theorem good_emit (c : Compiler) (op : Opcode) (ops : List Nat) (hne : c.scopes ≠ [])
    (hg : GoodScope (currentScope c)) :
    GoodScope (currentScope (emit c op ops).2) ∧ PrevOk (currentScope (emit c op ops).2) := by
  have hs := emit_currentScope c op ops hne
  rw [hs]
  simp only [GoodScope, PrevOk, currentInstructions] at hg ⊢
  constructor
  · refine Or.inr ⟨?_, ?_⟩
    · simp [Make_length]
    · rw [List.getD_append_right _ _ _ _ (le_refl _), Nat.sub_self, Make_getD_zero]
  · by_cases hcur : (currentScope c).instructions = []
    · exact Or.inl (by simp [hcur])
    · rcases hg with hg | ⟨hlen, hbyte⟩
      · exact absurd hg hcur
      · refine Or.inr ⟨hlen, ?_⟩
        rw [List.take_left]
        exact hbyte

theorem good_removeLastPop (c : Compiler) (hne : c.scopes ≠ [])
    (hg : GoodScope (currentScope c)) (hp : PrevOk (currentScope c))
    (hcur : currentInstructions c ≠ []) :
    GoodScope (currentScope (removeLastPop c)) := by
  have hs := removeLastPop_currentScope c hne
  rw [hs]
  simp only [GoodScope, PrevOk, currentInstructions] at hg hp hcur ⊢
  rcases hg with hg | ⟨hlen, _⟩
  · exact absurd hg hcur
  · rcases hp with hp | ⟨hplen, hpbyte⟩
    · exact Or.inl (by simp [hp])
    · refine Or.inr ⟨?_, hpbyte⟩
      have hinst := instrLen_pos (currentScope c).lastInstruction.opcode
      simp only [List.length_take]
      rw [Nat.min_eq_left (by omega)]
      exact hplen

theorem good_patch_below (c : Compiler) (pos operand : Nat) (hne : c.scopes ≠ [])
    (hg : GoodScope (currentScope c)) (hcur : currentInstructions c ≠ [])
    (hlt : pos + (Make ((currentInstructions c).getD pos 0) [operand]).length ≤
      (currentScope c).lastInstruction.position) :
    GoodScope (currentScope (changeOperand c pos operand)) := by
  have hs := changeOperand_currentScope c pos operand hne
  rw [hs]
  simp only [GoodScope, currentInstructions] at hg hcur hlt ⊢
  rcases hg with hg | ⟨hlen, hbyte⟩
  · exact absurd hg hcur
  · refine Or.inr ⟨?_, ?_⟩
    · rw [overwriteAt_length]
      exact hlen
    · rw [getD_overwriteAt_ge _ _ _ _ _ hlt]
      exact hbyte

theorem good_patch_at_last (c : Compiler) (operand : Nat) (hne : c.scopes ≠ [])
    (hg : GoodScope (currentScope c)) (hcur : currentInstructions c ≠ []) :
    GoodScope (currentScope
      (changeOperand c (currentScope c).lastInstruction.position operand)) := by
  have hs := changeOperand_currentScope c (currentScope c).lastInstruction.position operand hne
  rw [hs]
  simp only [GoodScope, currentInstructions] at hg hcur ⊢
  rcases hg with hg | ⟨hlen, hbyte⟩
  · exact absurd hg hcur
  · have hpos : (currentScope c).lastInstruction.position <
        (currentScope c).instructions.length := by
      have := instrLen_pos (currentScope c).lastInstruction.opcode
      omega
    refine Or.inr ⟨?_, ?_⟩
    · rw [overwriteAt_length]
      exact hlen
    · rw [hbyte, Make_opByte]
      exact getD_overwriteAt_self _ _ _ _ _ hpos

/-! ## Lemmas: further overwrite facts -/

theorem overwriteAt_ge_length (l : List Nat) : ∀ (p : Nat) (n : List Nat), l.length ≤ p →
    overwriteAt l p n = l := by
  induction l with
  | nil => intro p n _; cases n <;> cases p <;> rfl
  | cons b rest ih =>
    intro p n hp
    cases n with
    | nil => rw [overwriteAt_noOps]
    | cons x ns =>
      cases p with
      | zero => simp at hp
      | succ p => rw [overwriteAt_cons_succ, ih p (x :: ns) (by simp at hp; omega)]

theorem overwriteAt_append_right (l2 : List Nat) (l1 : List Nat) : ∀ (p : Nat) (n : List Nat),
    l1.length ≤ p →
    overwriteAt (l1 ++ l2) p n = l1 ++ overwriteAt l2 (p - l1.length) n := by
  induction l1 with
  | nil => intro p n _; simp
  | cons b rest ih =>
    intro p n hp
    cases p with
    | zero => simp at hp
    | succ p =>
      cases n with
      | nil => rw [overwriteAt_noOps, overwriteAt_noOps]
      | cons x ns =>
        simp only [List.cons_append, overwriteAt_cons_succ]
        rw [ih p (x :: ns) (by simp at hp; omega)]
        simp [Nat.succ_sub_succ]

/-! ## Lemmas: convenient scope-shape corollaries -/

theorem cur_emit (c : Compiler) (op : Opcode) (ops : List Nat) (hne : c.scopes ≠ []) :
    currentInstructions (emit c op ops).2 =
      currentInstructions c ++ Make (opByte op) ops := by
  simp [currentInstructions, emit_currentScope c op ops hne]

theorem last_emit (c : Compiler) (op : Opcode) (ops : List Nat) (hne : c.scopes ≠ []) :
    (currentScope (emit c op ops).2).lastInstruction =
      EmittedInstruction.mk op (currentInstructions c).length := by
  rw [emit_currentScope c op ops hne]

theorem prev_emit (c : Compiler) (op : Opcode) (ops : List Nat) (hne : c.scopes ≠ []) :
    (currentScope (emit c op ops).2).previousInstruction =
      (currentScope c).lastInstruction := by
  rw [emit_currentScope c op ops hne]

theorem cur_changeOperand (c : Compiler) (pos operand : Nat) (hne : c.scopes ≠ []) :
    currentInstructions (changeOperand c pos operand) =
      overwriteAt (currentInstructions c) pos
        (Make ((currentInstructions c).getD pos 0) [operand]) := by
  simp [currentInstructions, changeOperand_currentScope c pos operand hne]

theorem last_changeOperand (c : Compiler) (pos operand : Nat) (hne : c.scopes ≠ []) :
    (currentScope (changeOperand c pos operand)).lastInstruction =
      (currentScope c).lastInstruction := by
  rw [changeOperand_currentScope c pos operand hne]

theorem cur_removeLastPop (c : Compiler) (hne : c.scopes ≠ []) :
    currentInstructions (removeLastPop c) =
      (currentInstructions c).take (currentScope c).lastInstruction.position := by
  simp [currentInstructions, removeLastPop_currentScope c hne]

theorem last_removeLastPop (c : Compiler) (hne : c.scopes ≠ []) :
    (currentScope (removeLastPop c)).lastInstruction =
      (currentScope c).previousInstruction := by
  rw [removeLastPop_currentScope c hne]

/-! ## Lemmas: step composition -/

theorem shape_rfl (c : Compiler) : ScopesShape c c := ⟨rfl, rfl⟩

theorem shape_trans {c c1 c2 : Compiler} (h1 : ScopesShape c c1) (h2 : ScopesShape c1 c2) :
    ScopesShape c c2 := ⟨h2.1.trans h1.1, h2.2.trans h1.2⟩

theorem shape_emit (c : Compiler) (op : Opcode) (ops : List Nat) :
    ScopesShape c (emit c op ops).2 := ⟨emit_tail c op ops, emit_length c op ops⟩

theorem shape_removeLastPop (c : Compiler) : ScopesShape c (removeLastPop c) :=
  ⟨removeLastPop_tail c, removeLastPop_length c⟩

theorem shape_changeOperand (c : Compiler) (pos operand : Nat) :
    ScopesShape c (changeOperand c pos operand) :=
  ⟨changeOperand_tail c pos operand, changeOperand_length c pos operand⟩

theorem shape_rlpwr (c : Compiler) : ScopesShape c (replaceLastPopWithReturn c) :=
  ⟨replaceLastPopWithReturn_tail c, replaceLastPopWithReturn_length c⟩

theorem shape_pop_ite (c : Compiler) :
    ScopesShape c (if lastInstructionIs c .opPop then removeLastPop c else c) := by
  split
  · exact shape_removeLastPop c
  · exact shape_rfl c

theorem shape_finalize (c : Compiler) : ScopesShape c (finalizeFunctionBody c) := by
  simp only [finalizeFunctionBody]
  split <;> split <;>
    first
      | exact shape_rfl c
      | exact shape_removeLastPop c
      | exact shape_rlpwr c
      | exact shape_trans (shape_rlpwr c) (shape_emit _ _ _)
      | exact shape_emit _ _ _

theorem shape_loadSymbol (c : Compiler) (s : Symbol) : ScopesShape c (loadSymbol c s) := by
  obtain ⟨op, ops, hl⟩ := loadSymbol_eq_emit c s
  rw [hl]
  exact shape_emit c op ops

theorem shape_loadSymbols (syms : List Symbol) : ∀ c : Compiler,
    ScopesShape c (syms.foldl loadSymbol c) := by
  induction syms with
  | nil => intro c; exact shape_rfl c
  | cons s rest ih =>
    intro c
    exact shape_trans (shape_loadSymbol c s) (ih (loadSymbol c s))

theorem scopes_ne_of_shape {c c' : Compiler} (h : ScopesShape c c') (hne : c.scopes ≠ []) :
    c'.scopes ≠ [] := by
  intro h0
  have hl := h.2
  rw [h0] at hl
  exact hne (List.length_eq_zero.mp hl.symm)

theorem cur_le_of_ext {c c' : Compiler} (h : ScopeExt c c') :
    (currentInstructions c).length ≤ (currentInstructions c').length := by
  obtain ⟨d, hd⟩ := h.2.2.1
  rw [hd]
  simp

theorem stepOk_rfl (c : Compiler) : StepOk c c :=
  ⟨shape_rfl c, fun hg => ⟨scopeExt_rfl c, hg⟩⟩

theorem stepOk_trans {c c1 c2 : Compiler} (h1 : StepOk c c1) (h2 : StepOk c1 c2) :
    StepOk c c2 := by
  refine ⟨shape_trans h1.1 h2.1, fun hg => ?_⟩
  obtain ⟨e1, g1⟩ := h1.2 hg
  obtain ⟨e2, g2⟩ := h2.2 g1
  exact ⟨scopeExt_trans e1 e2, g2⟩

theorem stepOk_emit (c : Compiler) (op : Opcode) (ops : List Nat) (hne : c.scopes ≠ []) :
    StepOk c (emit c op ops).2 :=
  ⟨shape_emit c op ops, fun hg => ⟨scopeExt_emit c op ops, (good_emit c op ops hne hg).1⟩⟩

theorem stepOk_addConstant (c : Compiler) (obj : Obj) : StepOk c (addConstant c obj).2 :=
  ⟨⟨rfl, rfl⟩, fun hg => ⟨⟨rfl, rfl, ⟨[], (List.append_nil _).symm⟩, Or.inl rfl⟩, hg⟩⟩

theorem stepOk_loadSymbols (syms : List Symbol) : ∀ c : Compiler, c.scopes ≠ [] →
    StepOk c (syms.foldl loadSymbol c) := by
  induction syms with
  | nil => intro c _; exact stepOk_rfl c
  | cons s rest ih =>
    intro c hne
    obtain ⟨op, ops, hl⟩ := loadSymbol_eq_emit c s
    have h1 : StepOk c (loadSymbol c s) := by rw [hl]; exact stepOk_emit c op ops hne
    exact stepOk_trans h1 (ih (loadSymbol c s) (scopes_ne_of_shape h1.1 hne))

theorem lastInstructionIs_iff (c : Compiler) (op : Opcode) :
    lastInstructionIs c op = true ↔
      ((currentInstructions c).length ≠ 0 ∧
        (currentScope c).lastInstruction.opcode = op) := by
  by_cases h : (currentInstructions c).length = 0
  · simp [lastInstructionIs, h]
  · simp [lastInstructionIs, h]

/-! ## Lemmas: task postcondition constructors -/

theorem compOk_expr_emit (e : Expr) {c c2 : Compiler} (op : Opcode) (ops : List Nat)
    (hne2 : c2.scopes ≠ []) (hstep : StepOk c c2) :
    CompOk (.expr e) c (emit c2 op ops).2 := by
  refine ⟨stepOk_trans hstep (stepOk_emit c2 op ops hne2),
    fun h => h.elim, fun h => h.elim, ?_⟩
  intro _ hg
  obtain ⟨ext, _⟩ := hstep.2 hg
  rw [last_emit c2 op ops hne2]
  exact cur_le_of_ext ext

theorem compOk_stmt_emit (s : Stmt) {c c2 : Compiler} (op : Opcode) (ops : List Nat)
    (hne2 : c2.scopes ≠ []) (hstep : StepOk c c2)
    (hprev : GoodScope (currentScope c) →
      (currentInstructions c).length ≤ (currentScope c2).lastInstruction.position) :
    CompOk (.stmt s) c (emit c2 op ops).2 := by
  refine ⟨stepOk_trans hstep (stepOk_emit c2 op ops hne2),
    ?_, fun h => h.elim, fun h => h.elim⟩
  intro _ hg
  obtain ⟨ext, g2⟩ := hstep.2 hg
  refine ⟨(good_emit c2 op ops hne2 g2).2, ?_, ?_⟩
  · rw [last_emit c2 op ops hne2]
    exact cur_le_of_ext ext
  · rw [prev_emit c2 op ops hne2]
    exact hprev hg

theorem compOk_stmtList_self (l : StmtList) (c : Compiler) : CompOk (.stmtList l) c c :=
  ⟨stepOk_rfl c, fun h => h.elim, fun _ => Or.inl rfl, fun h => h.elim⟩

theorem compOk_stmtList_cons (s : Stmt) (rest : StmtList) {c c1 c' : Compiler}
    (h1 : CompOk (.stmt s) c c1) (h2 : CompOk (.stmtList rest) c1 c') :
    CompOk (.stmtList (.cons s rest)) c c' := by
  refine ⟨stepOk_trans h1.1 h2.1, fun h => h.elim, ?_, fun h => h.elim⟩
  intro _
  refine Or.inr ?_
  intro hg
  obtain ⟨ext1, g1⟩ := h1.1.2 hg
  have hE1 := h1.2.1 trivial hg
  have hlen : (currentInstructions c).length ≤ (currentInstructions c1).length :=
    cur_le_of_ext ext1
  rcases h2.2.2.1 trivial with heq | hE2
  · rw [heq]
    exact hE1
  · have h3 := hE2 g1
    exact ⟨h3.1, le_trans hlen h3.2.1, le_trans hlen h3.2.2⟩

theorem compOk_exprList_of_step (l : ExprList) {c c' : Compiler} (hstep : StepOk c c') :
    CompOk (.exprList l) c c' :=
  ⟨hstep, fun h => h.elim, fun h => h.elim, fun h => h.elim⟩

theorem compOk_sortedPairs_of_step (l : List (Expr × Expr)) {c c' : Compiler}
    (hstep : StepOk c c') : CompOk (.sortedPairs l) c c' :=
  ⟨hstep, fun h => h.elim, fun h => h.elim, fun h => h.elim⟩

/-! ## Lemmas: the back-patching steps of the if-expression -/

theorem scopeExt_changeOperand {c cP : Compiler} (pos operand : Nat)
    (hne : cP.scopes ≠ [])
    (hext : ScopeExt c cP)
    (hpos : (currentInstructions c).length ≤ pos) :
    ScopeExt c (changeOperand cP pos operand) := by
  obtain ⟨d, hd⟩ := hext.2.2.1
  refine ⟨?_, ?_, ?_, ?_⟩
  · rw [changeOperand_tail]
    exact hext.1
  · rw [changeOperand_length]
    exact hext.2.1
  · refine ⟨overwriteAt d (pos - (currentInstructions c).length)
      (Make ((currentInstructions cP).getD pos 0) [operand]), ?_⟩
    rw [cur_changeOperand cP pos operand hne, hd,
      overwriteAt_append_right _ _ _ _ hpos]
  · rcases hext.2.2.2 with heq | hlt
    · refine Or.inl ?_
      have hcur : currentInstructions cP = currentInstructions c := by
        simp [currentInstructions, heq]
      rw [changeOperand_currentScope cP pos operand hne, heq]
      rw [hcur, overwriteAt_ge_length _ _ _ hpos]
      rfl
    · refine Or.inr ?_
      rw [last_changeOperand cP pos operand hne]
      exact hlt

theorem block_truncate {j2 c3 : Compiler} (c4 : Compiler) (hnej : j2.scopes ≠ [])
    (hext : ScopeExt j2 c3)
    (hg3 : GoodScope (currentScope c3))
    (hnotpop : (currentScope j2).lastInstruction.opcode ≠ Opcode.opPop)
    (hpost : currentScope c3 = currentScope j2 ∨
      (PrevOk (currentScope c3) ∧
       (currentInstructions j2).length ≤ (currentScope c3).lastInstruction.position ∧
       (currentInstructions j2).length ≤ (currentScope c3).previousInstruction.position))
    (hc4 : c4 = if lastInstructionIs c3 .opPop then removeLastPop c3 else c3) :
    ScopeExt j2 c4 ∧ GoodScope (currentScope c4) ∧
    (∃ d4, currentInstructions c4 = currentInstructions j2 ++ d4) := by
  have hne3 : c3.scopes ≠ [] := by
    intro h0
    have hl := hext.2.1
    rw [h0] at hl
    exact hnej (List.length_eq_zero.mp hl.symm)
  by_cases hpop : lastInstructionIs c3 .opPop = true
  · rw [if_pos hpop] at hc4
    subst hc4
    obtain ⟨hlen0, hisPop⟩ := (lastInstructionIs_iff c3 .opPop).mp hpop
    have hcur3ne : currentInstructions c3 ≠ [] := fun h0 => hlen0 (by rw [h0]; rfl)
    rcases hpost with heq | ⟨hp3, hlast3, hprev3⟩
    · rw [heq] at hisPop
      exact absurd hisPop hnotpop
    · have hg4 := good_removeLastPop c3 hne3 hg3 hp3 hcur3ne
      obtain ⟨d, hd⟩ := hext.2.2.1
      have hcur4 : currentInstructions (removeLastPop c3) =
          currentInstructions j2 ++
            d.take ((currentScope c3).lastInstruction.position -
              (currentInstructions j2).length) := by
        rw [cur_removeLastPop c3 hne3, hd, List.take_append_eq_append_take,
          List.take_of_length_le hlast3]
      refine ⟨⟨?_, ?_, ⟨_, hcur4⟩, Or.inr ?_⟩, hg4, ⟨_, hcur4⟩⟩
      · rw [removeLastPop_tail]
        exact hext.1
      · rw [removeLastPop_length]
        exact hext.2.1
      · rw [last_removeLastPop c3 hne3]
        exact hprev3
  · rw [if_neg hpop] at hc4
    subst hc4
    exact ⟨hext, hg3, hext.2.2.1⟩

/-! ## Lemmas: the function-body epilogue -/

theorem finalize_tail (c : Compiler) :
    (finalizeFunctionBody c).scopes.tail = c.scopes.tail := (shape_finalize c).1

theorem finalize_ends (c : Compiler) (hne : c.scopes ≠ [])
    (hg : GoodScope (currentScope c)) :
    (currentInstructions (finalizeFunctionBody c)).getLast? =
        some (opByte Opcode.opReturnValue) ∨
      (currentInstructions (finalizeFunctionBody c)).getLast? =
        some (opByte Opcode.opReturn) := by
  simp only [finalizeFunctionBody]
  by_cases h1 : lastInstructionIs c .opPop = true
  · rw [if_pos h1]
    obtain ⟨hlen0, hop⟩ := (lastInstructionIs_iff c .opPop).mp h1
    rcases hg with hg0 | ⟨hlen, _⟩
    · exact absurd hg0 fun h0 => hlen0 (by simp [currentInstructions, h0])
    have hne1 : (replaceLastPopWithReturn c).scopes ≠ [] :=
      scopes_ne_of_shape (shape_rlpwr c) hne
    have hs := replaceLastPopWithReturn_currentScope c hne
    have hpos : (currentScope c).lastInstruction.position + 1 =
        (currentInstructions c).length := by
      have h2 : instrLen Opcode.opPop = 1 := rfl
      rw [hop, h2] at hlen
      exact hlen
    have hcur4 : currentInstructions (replaceLastPopWithReturn c) =
        overwriteAt (currentInstructions c) (currentScope c).lastInstruction.position
          [opByte Opcode.opReturnValue] := by
      simp [currentInstructions, hs]
    have h2 : lastInstructionIs (replaceLastPopWithReturn c) .opReturnValue = true := by
      rw [lastInstructionIs_iff]
      constructor
      · rw [hcur4, overwriteAt_length]
        exact hlen0
      · rw [hs]
    rw [if_pos h2]
    left
    rw [hcur4]
    exact getLast?_overwriteAt_last _ _ _ hpos
  · rw [if_neg h1]
    by_cases h2 : lastInstructionIs c .opReturnValue = true
    · rw [if_pos h2]
      obtain ⟨hlen0, hop⟩ := (lastInstructionIs_iff c .opReturnValue).mp h2
      rcases hg with hg0 | ⟨hlen, hbyte⟩
      · exact absurd hg0 fun h0 => hlen0 (by simp [currentInstructions, h0])
      left
      have h3 : instrLen Opcode.opReturnValue = 1 := rfl
      rw [hop, h3] at hlen
      rw [hop] at hbyte
      exact getLast?_eq_of_getD _ _ _ hlen hbyte
    · rw [if_neg h2]
      right
      rw [cur_emit c .opReturn [] hne]
      have h4 : Make (opByte Opcode.opReturn) [] = [opByte Opcode.opReturn] := rfl
      rw [h4]
      exact List.getLast?_concat _

/-! ## Lemmas: the three composite `Compile` cases -/

/-- The function-literal case of `Compile`: enter scope, compile the body,
finalize, leave scope, load the free symbols, add the `CompiledFunction`
constant, emit `OpClosure`.  `leaveScope` restores the outer scope
wholesale, so the enclosing scope's postcondition needs nothing from the
body beyond the scope-stack skeleton. -/
theorem compOk_funcLit (e : Expr) {c c2s c3 : Compiler} (ks : List Symbol)
    (obj : Obj) (ops2 : List Nat)
    (hne : c.scopes ≠ [])
    (hsc2 : c2s.scopes = newCompilationScope :: c.scopes)
    (hs3 : StepOk c2s c3) :
    CompOk (.expr e) c
      (emit
        (addConstant (ks.foldl loadSymbol (leaveScope (finalizeFunctionBody c3)).2) obj).2
        .opClosure ops2).2 := by
  have hne2 : c2s.scopes ≠ [] := by rw [hsc2]; exact List.cons_ne_nil _ _
  have hne3 : c3.scopes ≠ [] := scopes_ne_of_shape hs3.1 hne2
  have htail3 : c3.scopes.tail = c.scopes := by
    have h0 := hs3.1.1
    rw [hsc2] at h0
    exact h0
  have hls : (leaveScope (finalizeFunctionBody c3)).2.scopes = c.scopes := by
    show (finalizeFunctionBody c3).scopes.tail = c.scopes
    rw [finalize_tail, htail3]
  have hcs : currentScope (leaveScope (finalizeFunctionBody c3)).2 = currentScope c := by
    simp only [currentScope, hls]
  have hci : currentInstructions (leaveScope (finalizeFunctionBody c3)).2 =
      currentInstructions c := by
    simp only [currentInstructions, hcs]
  have hstepLs : StepOk c (leaveScope (finalizeFunctionBody c3)).2 :=
    ⟨⟨by rw [hls], by rw [hls]⟩, fun hg =>
      ⟨⟨by rw [hls], by rw [hls], ⟨[], by rw [hci, List.append_nil]⟩, Or.inl hcs⟩,
        by rw [hcs]; exact hg⟩⟩
  have hneLs : (leaveScope (finalizeFunctionBody c3)).2.scopes ≠ [] := by
    rw [hls]; exact hne
  have hstep7 : StepOk c (ks.foldl loadSymbol (leaveScope (finalizeFunctionBody c3)).2) :=
    stepOk_trans hstepLs (stepOk_loadSymbols ks _ hneLs)
  have hne7 : (ks.foldl loadSymbol (leaveScope (finalizeFunctionBody c3)).2).scopes ≠ [] :=
    scopes_ne_of_shape hstep7.1 hne
  have hstepA : StepOk c
      (addConstant (ks.foldl loadSymbol (leaveScope (finalizeFunctionBody c3)).2) obj).2 :=
    stepOk_trans hstep7 (stepOk_addConstant _ obj)
  have hneA :
      (addConstant (ks.foldl loadSymbol
        (leaveScope (finalizeFunctionBody c3)).2) obj).2.scopes ≠ [] := hne7
  exact compOk_expr_emit e .opClosure ops2 hneA hstepA

/-- The if-expression case of `Compile` without an alternative: condition,
`OpJumpNotTruthy 9999`, consequence block, possible `OpPop` removal,
`OpJump 9999`, back-patch the conditional jump, `OpNull`, back-patch the
unconditional jump. -/
theorem compOk_if_noAlt (e : Expr) {c c1 c3 c4 j2 jp2 c6 c7 : Compiler}
    {jnt jpp L1 L2 : Nat}
    (hne : c.scopes ≠ [])
    (hs1 : StepOk c c1)
    (hj2 : j2 = (emit c1 .opJumpNotTruthy [9999]).2)
    (hjnt : jnt = (emit c1 .opJumpNotTruthy [9999]).1)
    (hs3 : StepOk j2 c3)
    (hpost : GoodScope (currentScope j2) →
      currentScope c3 = currentScope j2 ∨
        (PrevOk (currentScope c3) ∧
         (currentInstructions j2).length ≤ (currentScope c3).lastInstruction.position ∧
         (currentInstructions j2).length ≤ (currentScope c3).previousInstruction.position))
    (hc4 : c4 = if lastInstructionIs c3 .opPop then removeLastPop c3 else c3)
    (hjp2 : jp2 = (emit c4 .opJump [9999]).2)
    (hjpp : jpp = (emit c4 .opJump [9999]).1)
    (hc6 : c6 = changeOperand jp2 jnt L1)
    (hc7 : c7 = (emit c6 .opNull []).2) :
    CompOk (.expr e) c (changeOperand c7 jpp L2) := by
  have hne1 : c1.scopes ≠ [] := scopes_ne_of_shape hs1.1 hne
  have hnej : j2.scopes ≠ [] := by
    rw [hj2]; exact scopes_ne_of_shape (shape_emit c1 _ _) hne1
  have hne3 : c3.scopes ≠ [] := scopes_ne_of_shape hs3.1 hnej
  have hsh4 : ScopesShape c3 c4 := by rw [hc4]; exact shape_pop_ite c3
  have hne4 : c4.scopes ≠ [] := scopes_ne_of_shape hsh4 hne3
  have hshjp : ScopesShape c4 jp2 := by rw [hjp2]; exact shape_emit c4 _ _
  have hnjp : jp2.scopes ≠ [] := scopes_ne_of_shape hshjp hne4
  have hsh6 : ScopesShape jp2 c6 := by rw [hc6]; exact shape_changeOperand jp2 jnt L1
  have hne6 : c6.scopes ≠ [] := scopes_ne_of_shape hsh6 hnjp
  have hsh7 : ScopesShape c6 c7 := by rw [hc7]; exact shape_emit c6 _ _
  have hne7 : c7.scopes ≠ [] := scopes_ne_of_shape hsh7 hne6
  have hshape : ScopesShape c (changeOperand c7 jpp L2) :=
    shape_trans hs1.1 (shape_trans (by rw [hj2]; exact shape_emit c1 _ _)
      (shape_trans hs3.1 (shape_trans hsh4 (shape_trans hshjp (shape_trans hsh6
        (shape_trans hsh7 (shape_changeOperand c7 jpp L2)))))))
  have main : GoodScope (currentScope c) →
      ScopeExt c (changeOperand c7 jpp L2) ∧
      GoodScope (currentScope (changeOperand c7 jpp L2)) ∧
      (currentInstructions c).length ≤
        (currentScope (changeOperand c7 jpp L2)).lastInstruction.position := by
    intro hg
    obtain ⟨ext1, hg1⟩ := hs1.2 hg
    have extj : ScopeExt c1 j2 := by rw [hj2]; exact scopeExt_emit c1 _ _
    have hgej : GoodScope (currentScope j2) ∧ PrevOk (currentScope j2) := by
      rw [hj2]; exact good_emit c1 .opJumpNotTruthy [9999] hne1 hg1
    obtain ⟨ext3, hg3⟩ := hs3.2 hgej.1
    have hcurj : currentInstructions j2 =
        currentInstructions c1 ++ Make (opByte Opcode.opJumpNotTruthy) [9999] := by
      rw [hj2]; exact cur_emit c1 _ _ hne1
    have hlastj : (currentScope j2).lastInstruction =
        EmittedInstruction.mk Opcode.opJumpNotTruthy (currentInstructions c1).length := by
      rw [hj2]; exact last_emit c1 _ _ hne1
    have hjnt' : jnt = (currentInstructions c1).length := by
      rw [hjnt]; exact emit_fst c1 _ _
    have hMj : (Make (opByte Opcode.opJumpNotTruthy) [9999]).length = 3 := by
      rw [Make_length]; rfl
    have hlenj : (currentInstructions j2).length = (currentInstructions c1).length + 3 := by
      rw [hcurj, List.length_append, hMj]
    have hnotpop : (currentScope j2).lastInstruction.opcode ≠ Opcode.opPop := by
      rw [hlastj]; exact fun hE => nomatch hE
    obtain ⟨extJ4, hg4, d4, hd4⟩ :=
      block_truncate c4 hnej ext3 hg3 hnotpop (hpost hgej.1) hc4
    have hlen4 : (currentInstructions j2).length ≤ (currentInstructions c4).length := by
      rw [hd4]; simp
    have hbytej : (currentInstructions j2).getD jnt 0 = opByte Opcode.opJumpNotTruthy := by
      rw [hcurj, hjnt', List.getD_append_right _ _ _ _ (le_refl _), Nat.sub_self,
        Make_getD_zero]
    have hjlt : jnt < (currentInstructions j2).length := by rw [hjnt', hlenj]; omega
    have hbyte4 : (currentInstructions c4).getD jnt 0 = opByte Opcode.opJumpNotTruthy := by
      rw [hd4, List.getD_append _ _ _ _ hjlt]
      exact hbytej
    have hgjp : GoodScope (currentScope jp2) ∧ PrevOk (currentScope jp2) := by
      rw [hjp2]; exact good_emit c4 .opJump [9999] hne4 hg4
    have hcurjp : currentInstructions jp2 =
        currentInstructions c4 ++ Make (opByte Opcode.opJump) [9999] := by
      rw [hjp2]; exact cur_emit c4 _ _ hne4
    have hlastjp : (currentScope jp2).lastInstruction =
        EmittedInstruction.mk Opcode.opJump (currentInstructions c4).length := by
      rw [hjp2]; exact last_emit c4 _ _ hne4
    have hjpp' : jpp = (currentInstructions c4).length := by
      rw [hjpp]; exact emit_fst c4 _ _
    have hMjp : (Make (opByte Opcode.opJump) [9999]).length = 3 := by
      rw [Make_length]; rfl
    have hlenjp : (currentInstructions jp2).length = (currentInstructions c4).length + 3 := by
      rw [hcurjp, List.length_append, hMjp]
    have extC4 : ScopeExt c c4 := scopeExt_trans ext1 (scopeExt_trans extj extJ4)
    have extCjp : ScopeExt c jp2 :=
      scopeExt_trans extC4 (by rw [hjp2]; exact scopeExt_emit c4 _ _)
    have hjlt4 : jnt < (currentInstructions c4).length := lt_of_lt_of_le hjlt hlen4
    have hbytejp : (currentInstructions jp2).getD jnt 0 = opByte Opcode.opJumpNotTruthy := by
      rw [hcurjp, List.getD_append _ _ _ _ hjlt4]
      exact hbyte4
    have hMlen6 : (Make ((currentInstructions jp2).getD jnt 0) [L1]).length = 3 := by
      rw [hbytejp, Make_length]; rfl
    have hcurjpne : currentInstructions jp2 ≠ [] := by
      intro h0
      have h1 := congrArg List.length h0
      rw [hlenjp] at h1
      simp at h1
    have hg6 : GoodScope (currentScope c6) := by
      rw [hc6]
      refine good_patch_below jp2 jnt L1 hnjp hgjp.1 hcurjpne ?_
      rw [hMlen6, hlastjp]
      show jnt + 3 ≤ (currentInstructions c4).length
      omega
    have ext6 : ScopeExt c c6 := by
      rw [hc6]
      exact scopeExt_changeOperand jnt L1 hnjp extCjp
        (by rw [hjnt']; exact cur_le_of_ext ext1)
    have hlast6 : (currentScope c6).lastInstruction =
        EmittedInstruction.mk Opcode.opJump (currentInstructions c4).length := by
      rw [hc6, last_changeOperand jp2 jnt L1 hnjp]
      exact hlastjp
    have hlen6 : (currentInstructions c6).length = (currentInstructions jp2).length := by
      rw [hc6, cur_changeOperand jp2 jnt L1 hnjp, overwriteAt_length]
    have hside6 : jnt + (Make ((currentInstructions jp2).getD jnt 0) [L1]).length ≤ jpp := by
      rw [hMlen6, hjpp', hjnt']
      omega
    have hbytejpp : (currentInstructions jp2).getD jpp 0 = opByte Opcode.opJump := by
      rcases hgjp.1 with h0 | ⟨_, hb⟩
      · have h1 : (currentInstructions jp2).length = 0 := by
          simp [currentInstructions, h0]
        rw [hlenjp] at h1
        simp at h1
      · rw [hlastjp] at hb
        rw [hjpp']
        exact hb
    have hbyte6 : (currentInstructions c6).getD jpp 0 = opByte Opcode.opJump := by
      rw [hc6, cur_changeOperand jp2 jnt L1 hnjp, getD_overwriteAt_ge _ _ _ _ _ hside6]
      exact hbytejpp
    have hgc7 : GoodScope (currentScope c7) ∧ PrevOk (currentScope c7) := by
      rw [hc7]; exact good_emit c6 .opNull [] hne6 hg6
    have hcur7 : currentInstructions c7 =
        currentInstructions c6 ++ Make (opByte Opcode.opNull) [] := by
      rw [hc7]; exact cur_emit c6 _ _ hne6
    have hlast7 : (currentScope c7).lastInstruction =
        EmittedInstruction.mk Opcode.opNull (currentInstructions c6).length := by
      rw [hc7]; exact last_emit c6 _ _ hne6
    have ext7 : ScopeExt c c7 := scopeExt_trans ext6 (by rw [hc7]; exact scopeExt_emit c6 _ _)
    have hM15 : (Make (opByte Opcode.opNull) []).length = 1 := by rw [Make_length]; rfl
    have hlen7 : (currentInstructions c7).length = (currentInstructions c6).length + 1 := by
      rw [hcur7, List.length_append, hM15]
    have hjpplt6 : jpp < (currentInstructions c6).length := by
      rw [hjpp', hlen6, hlenjp]
      omega
    have hbyte7 : (currentInstructions c7).getD jpp 0 = opByte Opcode.opJump := by
      rw [hcur7, List.getD_append _ _ _ _ hjpplt6]
      exact hbyte6
    have hcur7ne : currentInstructions c7 ≠ [] := by
      intro h0
      have h1 := congrArg List.length h0
      rw [hlen7] at h1
      simp at h1
    have hgF : GoodScope (currentScope (changeOperand c7 jpp L2)) := by
      refine good_patch_below c7 jpp L2 hne7 hgc7.1 hcur7ne ?_
      have hM2 : (Make ((currentInstructions c7).getD jpp 0) [L2]).length = 3 := by
        rw [hbyte7, Make_length]; rfl
      rw [hM2, hlast7]
      show jpp + 3 ≤ (currentInstructions c6).length
      rw [hjpp', hlen6, hlenjp]
    have extF : ScopeExt c (changeOperand c7 jpp L2) :=
      scopeExt_changeOperand jpp L2 hne7 ext7 (by rw [hjpp']; exact cur_le_of_ext extC4)
    have hlastF : (currentInstructions c).length ≤
        (currentScope (changeOperand c7 jpp L2)).lastInstruction.position := by
      rw [last_changeOperand c7 jpp L2 hne7, hlast7]
      show (currentInstructions c).length ≤ (currentInstructions c6).length
      exact cur_le_of_ext ext6
    exact ⟨extF, hgF, hlastF⟩
  exact ⟨⟨hshape, fun hg => ⟨(main hg).1, (main hg).2.1⟩⟩,
    fun hF => hF.elim, fun hF => hF.elim, fun _ hg => (main hg).2.2⟩

/-- The if-expression case of `Compile` with an alternative: as in the
no-alternative case up to the conditional-jump back-patch, then the
alternative block, a possible `OpPop` removal, and the unconditional-jump
back-patch. -/
theorem compOk_if_withAlt (e : Expr) {c c1 c3 c4 j2 jp2 c6 c7 c8 : Compiler}
    {jnt jpp L1 L2 : Nat}
    (hne : c.scopes ≠ [])
    (hs1 : StepOk c c1)
    (hj2 : j2 = (emit c1 .opJumpNotTruthy [9999]).2)
    (hjnt : jnt = (emit c1 .opJumpNotTruthy [9999]).1)
    (hs3 : StepOk j2 c3)
    (hpost : GoodScope (currentScope j2) →
      currentScope c3 = currentScope j2 ∨
        (PrevOk (currentScope c3) ∧
         (currentInstructions j2).length ≤ (currentScope c3).lastInstruction.position ∧
         (currentInstructions j2).length ≤ (currentScope c3).previousInstruction.position))
    (hc4 : c4 = if lastInstructionIs c3 .opPop then removeLastPop c3 else c3)
    (hjp2 : jp2 = (emit c4 .opJump [9999]).2)
    (hjpp : jpp = (emit c4 .opJump [9999]).1)
    (hc6 : c6 = changeOperand jp2 jnt L1)
    (hs7 : StepOk c6 c7)
    (hpost7 : GoodScope (currentScope c6) →
      currentScope c7 = currentScope c6 ∨
        (PrevOk (currentScope c7) ∧
         (currentInstructions c6).length ≤ (currentScope c7).lastInstruction.position ∧
         (currentInstructions c6).length ≤ (currentScope c7).previousInstruction.position))
    (hc8 : c8 = if lastInstructionIs c7 .opPop then removeLastPop c7 else c7) :
    CompOk (.expr e) c (changeOperand c8 jpp L2) := by
  have hne1 : c1.scopes ≠ [] := scopes_ne_of_shape hs1.1 hne
  have hnej : j2.scopes ≠ [] := by
    rw [hj2]; exact scopes_ne_of_shape (shape_emit c1 _ _) hne1
  have hne3 : c3.scopes ≠ [] := scopes_ne_of_shape hs3.1 hnej
  have hsh4 : ScopesShape c3 c4 := by rw [hc4]; exact shape_pop_ite c3
  have hne4 : c4.scopes ≠ [] := scopes_ne_of_shape hsh4 hne3
  have hshjp : ScopesShape c4 jp2 := by rw [hjp2]; exact shape_emit c4 _ _
  have hnjp : jp2.scopes ≠ [] := scopes_ne_of_shape hshjp hne4
  have hsh6 : ScopesShape jp2 c6 := by rw [hc6]; exact shape_changeOperand jp2 jnt L1
  have hne6 : c6.scopes ≠ [] := scopes_ne_of_shape hsh6 hnjp
  have hne7 : c7.scopes ≠ [] := scopes_ne_of_shape hs7.1 hne6
  have hsh8 : ScopesShape c7 c8 := by rw [hc8]; exact shape_pop_ite c7
  have hne8 : c8.scopes ≠ [] := scopes_ne_of_shape hsh8 hne7
  have hshape : ScopesShape c (changeOperand c8 jpp L2) :=
    shape_trans hs1.1 (shape_trans (by rw [hj2]; exact shape_emit c1 _ _)
      (shape_trans hs3.1 (shape_trans hsh4 (shape_trans hshjp (shape_trans hsh6
        (shape_trans hs7.1 (shape_trans hsh8 (shape_changeOperand c8 jpp L2))))))))
  have main : GoodScope (currentScope c) →
      ScopeExt c (changeOperand c8 jpp L2) ∧
      GoodScope (currentScope (changeOperand c8 jpp L2)) ∧
      (currentInstructions c).length ≤
        (currentScope (changeOperand c8 jpp L2)).lastInstruction.position := by
    intro hg
    obtain ⟨ext1, hg1⟩ := hs1.2 hg
    have extj : ScopeExt c1 j2 := by rw [hj2]; exact scopeExt_emit c1 _ _
    have hgej : GoodScope (currentScope j2) ∧ PrevOk (currentScope j2) := by
      rw [hj2]; exact good_emit c1 .opJumpNotTruthy [9999] hne1 hg1
    obtain ⟨ext3, hg3⟩ := hs3.2 hgej.1
    have hcurj : currentInstructions j2 =
        currentInstructions c1 ++ Make (opByte Opcode.opJumpNotTruthy) [9999] := by
      rw [hj2]; exact cur_emit c1 _ _ hne1
    have hlastj : (currentScope j2).lastInstruction =
        EmittedInstruction.mk Opcode.opJumpNotTruthy (currentInstructions c1).length := by
      rw [hj2]; exact last_emit c1 _ _ hne1
    have hjnt' : jnt = (currentInstructions c1).length := by
      rw [hjnt]; exact emit_fst c1 _ _
    have hMj : (Make (opByte Opcode.opJumpNotTruthy) [9999]).length = 3 := by
      rw [Make_length]; rfl
    have hlenj : (currentInstructions j2).length = (currentInstructions c1).length + 3 := by
      rw [hcurj, List.length_append, hMj]
    have hnotpop : (currentScope j2).lastInstruction.opcode ≠ Opcode.opPop := by
      rw [hlastj]; exact fun hE => nomatch hE
    obtain ⟨extJ4, hg4, d4, hd4⟩ :=
      block_truncate c4 hnej ext3 hg3 hnotpop (hpost hgej.1) hc4
    have hlen4 : (currentInstructions j2).length ≤ (currentInstructions c4).length := by
      rw [hd4]; simp
    have hbytej : (currentInstructions j2).getD jnt 0 = opByte Opcode.opJumpNotTruthy := by
      rw [hcurj, hjnt', List.getD_append_right _ _ _ _ (le_refl _), Nat.sub_self,
        Make_getD_zero]
    have hjlt : jnt < (currentInstructions j2).length := by rw [hjnt', hlenj]; omega
    have hbyte4 : (currentInstructions c4).getD jnt 0 = opByte Opcode.opJumpNotTruthy := by
      rw [hd4, List.getD_append _ _ _ _ hjlt]
      exact hbytej
    have hgjp : GoodScope (currentScope jp2) ∧ PrevOk (currentScope jp2) := by
      rw [hjp2]; exact good_emit c4 .opJump [9999] hne4 hg4
    have hcurjp : currentInstructions jp2 =
        currentInstructions c4 ++ Make (opByte Opcode.opJump) [9999] := by
      rw [hjp2]; exact cur_emit c4 _ _ hne4
    have hlastjp : (currentScope jp2).lastInstruction =
        EmittedInstruction.mk Opcode.opJump (currentInstructions c4).length := by
      rw [hjp2]; exact last_emit c4 _ _ hne4
    have hjpp' : jpp = (currentInstructions c4).length := by
      rw [hjpp]; exact emit_fst c4 _ _
    have hMjp : (Make (opByte Opcode.opJump) [9999]).length = 3 := by
      rw [Make_length]; rfl
    have hlenjp : (currentInstructions jp2).length = (currentInstructions c4).length + 3 := by
      rw [hcurjp, List.length_append, hMjp]
    have extC4 : ScopeExt c c4 := scopeExt_trans ext1 (scopeExt_trans extj extJ4)
    have extCjp : ScopeExt c jp2 :=
      scopeExt_trans extC4 (by rw [hjp2]; exact scopeExt_emit c4 _ _)
    have hjlt4 : jnt < (currentInstructions c4).length := lt_of_lt_of_le hjlt hlen4
    have hbytejp : (currentInstructions jp2).getD jnt 0 = opByte Opcode.opJumpNotTruthy := by
      rw [hcurjp, List.getD_append _ _ _ _ hjlt4]
      exact hbyte4
    have hMlen6 : (Make ((currentInstructions jp2).getD jnt 0) [L1]).length = 3 := by
      rw [hbytejp, Make_length]; rfl
    have hcurjpne : currentInstructions jp2 ≠ [] := by
      intro h0
      have h1 := congrArg List.length h0
      rw [hlenjp] at h1
      simp at h1
    have hg6 : GoodScope (currentScope c6) := by
      rw [hc6]
      refine good_patch_below jp2 jnt L1 hnjp hgjp.1 hcurjpne ?_
      rw [hMlen6, hlastjp]
      show jnt + 3 ≤ (currentInstructions c4).length
      omega
    have ext6 : ScopeExt c c6 := by
      rw [hc6]
      exact scopeExt_changeOperand jnt L1 hnjp extCjp
        (by rw [hjnt']; exact cur_le_of_ext ext1)
    have hlast6 : (currentScope c6).lastInstruction =
        EmittedInstruction.mk Opcode.opJump (currentInstructions c4).length := by
      rw [hc6, last_changeOperand jp2 jnt L1 hnjp]
      exact hlastjp
    have hlen6 : (currentInstructions c6).length = (currentInstructions jp2).length := by
      rw [hc6, cur_changeOperand jp2 jnt L1 hnjp, overwriteAt_length]
    have hside6 : jnt + (Make ((currentInstructions jp2).getD jnt 0) [L1]).length ≤ jpp := by
      rw [hMlen6, hjpp', hjnt']
      omega
    have hbytejpp : (currentInstructions jp2).getD jpp 0 = opByte Opcode.opJump := by
      rcases hgjp.1 with h0 | ⟨_, hb⟩
      · have h1 : (currentInstructions jp2).length = 0 := by
          simp [currentInstructions, h0]
        rw [hlenjp] at h1
        simp at h1
      · rw [hlastjp] at hb
        rw [hjpp']
        exact hb
    have hbyte6 : (currentInstructions c6).getD jpp 0 = opByte Opcode.opJump := by
      rw [hc6, cur_changeOperand jp2 jnt L1 hnjp, getD_overwriteAt_ge _ _ _ _ _ hside6]
      exact hbytejpp
    have hnotpop6 : (currentScope c6).lastInstruction.opcode ≠ Opcode.opPop := by
      rw [hlast6]; exact fun hE => nomatch hE
    obtain ⟨ext67, hg7⟩ := hs7.2 hg6
    obtain ⟨ext68, hg8, d8, hd8⟩ :=
      block_truncate c8 hne6 ext67 hg7 hnotpop6 (hpost7 hg6) hc8
    have hjpplt6 : jpp < (currentInstructions c6).length := by
      rw [hjpp', hlen6, hlenjp]
      omega
    have hbyte8 : (currentInstructions c8).getD jpp 0 = opByte Opcode.opJump := by
      rw [hd8, List.getD_append _ _ _ _ hjpplt6]
      exact hbyte6
    have hcur8ne : currentInstructions c8 ≠ [] := by
      intro h0
      rw [hd8] at h0
      have h1 := congrArg List.length (List.append_eq_nil.mp h0).1
      rw [hlen6, hlenjp] at h1
      simp at h1
    have extC8 : ScopeExt c c8 := scopeExt_trans ext6 ext68
    have hposjpp : (currentInstructions c).length ≤ jpp := by
      rw [hjpp']; exact cur_le_of_ext extC4
    have extF : ScopeExt c (changeOperand c8 jpp L2) :=
      scopeExt_changeOperand jpp L2 hne8 extC8 hposjpp
    have hlastF : (currentInstructions c).length ≤
        (currentScope (changeOperand c8 jpp L2)).lastInstruction.position := by
      rw [last_changeOperand c8 jpp L2 hne8]
      rcases ext68.2.2.2 with heq | hbound
      · rw [heq, hlast6]
        exact cur_le_of_ext extC4
      · exact le_trans (cur_le_of_ext ext6) hbound
    have hgF : GoodScope (currentScope (changeOperand c8 jpp L2)) := by
      rcases ext68.2.2.2 with heq | hbound
      · have hpos_eq : jpp = (currentScope c8).lastInstruction.position := by
          rw [heq, hlast6, hjpp']
        rw [hpos_eq]
        exact good_patch_at_last c8 L2 hne8 hg8 hcur8ne
      · refine good_patch_below c8 jpp L2 hne8 hg8 hcur8ne ?_
        have hM8 : (Make ((currentInstructions c8).getD jpp 0) [L2]).length = 3 := by
          rw [hbyte8, Make_length]; rfl
        rw [hM8]
        rw [hlen6, hlenjp] at hbound
        omega
    exact ⟨extF, hgF, hlastF⟩
  exact ⟨⟨hshape, fun hg => ⟨(main hg).1, (main hg).2.1⟩⟩,
    fun hF => hF.elim, fun hF => hF.elim, fun _ hg => (main hg).2.2⟩

/-! ## The compile-step postcondition theorem -/

/-- Every successful `Compile` call, from a state with a nonempty scope
stack, satisfies the postcondition `CompOk`: the scope-stack skeleton is
preserved; from a sane current scope the byte stream is only extended (up
to in-place patches within the newly produced region) and stays sane;
statements end with an `emit` whose tracked last and previous instructions
both lie in the new region; and expressions leave `lastInstruction`
in the new region. -/
theorem compileGo_ok (fuel : Nat) : ∀ (t : CTask) (c c' : Compiler),
    c.scopes ≠ [] → compileGo fuel t c = Except.ok c' → CompOk t c c' := by
  induction fuel with
  | zero =>
    intro t c c' _ h
    exact absurd h (by simp [compileGo])
  | succ fuel ih =>
    intro t c c' hne h
    cases t with
    | stmtList l =>
      cases l with
      | nil =>
        simp only [compileGo] at h
        injection h with h
        subst h
        exact compOk_stmtList_self .nil c
      | cons s rest =>
        simp only [compileGo] at h
        cases hr : compileGo fuel (.stmt s) c with
        | error m => rw [hr] at h; simp at h
        | ok c1 =>
          rw [hr] at h
          simp only [] at h
          have h1 := ih (.stmt s) c c1 hne hr
          have hne1 : c1.scopes ≠ [] := scopes_ne_of_shape h1.1.1 hne
          have h2 := ih (.stmtList rest) c1 c' hne1 h
          exact compOk_stmtList_cons s rest h1 h2
    | exprList l =>
      cases l with
      | nil =>
        simp only [compileGo] at h
        injection h with h
        subst h
        exact compOk_exprList_of_step _ (stepOk_rfl c)
      | cons e rest =>
        simp only [compileGo] at h
        cases hr : compileGo fuel (.expr e) c with
        | error m => rw [hr] at h; simp at h
        | ok c1 =>
          rw [hr] at h
          simp only [] at h
          have h1 := ih (.expr e) c c1 hne hr
          have hne1 : c1.scopes ≠ [] := scopes_ne_of_shape h1.1.1 hne
          have h2 := ih (.exprList rest) c1 c' hne1 h
          exact compOk_exprList_of_step _ (stepOk_trans h1.1 h2.1)
    | sortedPairs l =>
      cases l with
      | nil =>
        simp only [compileGo] at h
        injection h with h
        subst h
        exact compOk_sortedPairs_of_step _ (stepOk_rfl c)
      | cons p rest =>
        obtain ⟨k, v⟩ := p
        simp only [compileGo] at h
        cases hr : compileGo fuel (.expr k) c with
        | error m => rw [hr] at h; simp at h
        | ok c1 =>
          rw [hr] at h
          simp only [] at h
          cases hr2 : compileGo fuel (.expr v) c1 with
          | error m => rw [hr2] at h; simp at h
          | ok c2 =>
            rw [hr2] at h
            simp only [] at h
            have h1 := ih (.expr k) c c1 hne hr
            have hne1 : c1.scopes ≠ [] := scopes_ne_of_shape h1.1.1 hne
            have h2 := ih (.expr v) c1 c2 hne1 hr2
            have hne2 : c2.scopes ≠ [] := scopes_ne_of_shape h2.1.1 hne1
            have h3 := ih (.sortedPairs rest) c2 c' hne2 h
            exact compOk_sortedPairs_of_step _
              (stepOk_trans h1.1 (stepOk_trans h2.1 h3.1))
    | stmt s =>
      cases s with
      | exprStmt e =>
        simp only [compileGo] at h
        cases hr : compileGo fuel (.expr e) c with
        | error m => rw [hr] at h; simp at h
        | ok c1 =>
          rw [hr] at h
          simp only [] at h
          injection h with h
          subst h
          have h1 := ih (.expr e) c c1 hne hr
          have hne1 : c1.scopes ≠ [] := scopes_ne_of_shape h1.1.1 hne
          exact compOk_stmt_emit _ _ _ hne1 h1.1 (fun hg => h1.2.2.2 True.intro hg)
      | returnStmt v =>
        simp only [compileGo] at h
        cases hr : compileGo fuel (.expr v) c with
        | error m => rw [hr] at h; simp at h
        | ok c1 =>
          rw [hr] at h
          simp only [] at h
          injection h with h
          subst h
          have h1 := ih (.expr v) c c1 hne hr
          have hne1 : c1.scopes ≠ [] := scopes_ne_of_shape h1.1.1 hne
          exact compOk_stmt_emit _ _ _ hne1 h1.1 (fun hg => h1.2.2.2 True.intro hg)
      | letStmt name v =>
        simp only [compileGo] at h
        cases hr : compileGo fuel (.expr v)
            { c with symbolTable := (defineSym c.symbolTable name).2 } with
        | error m => rw [hr] at h; simp at h
        | ok c1 =>
          rw [hr] at h
          simp only [] at h
          have h1 := ih (.expr v)
            { c with symbolTable := (defineSym c.symbolTable name).2 } c1 hne hr
          have hs : StepOk c c1 := h1.1
          have hne1 : c1.scopes ≠ [] := scopes_ne_of_shape hs.1 hne
          have hprev : GoodScope (currentScope c) →
              (currentInstructions c).length ≤
                (currentScope c1).lastInstruction.position :=
            fun hg => h1.2.2.2 True.intro hg
          split at h
          · injection h with h
            subst h
            exact compOk_stmt_emit _ _ _ hne1 hs hprev
          · injection h with h
            subst h
            exact compOk_stmt_emit _ _ _ hne1 hs hprev
    | expr e =>
      cases e with
      | intLit tok value =>
        simp only [compileGo] at h
        injection h with h
        subst h
        exact compOk_expr_emit _ _ _ hne (stepOk_addConstant c _)
      | strLit tok value =>
        simp only [compileGo] at h
        injection h with h
        subst h
        exact compOk_expr_emit _ _ _ hne (stepOk_addConstant c _)
      | boolLit tok value =>
        simp only [compileGo] at h
        cases value with
        | true =>
          rw [if_pos rfl] at h
          injection h with h
          subst h
          exact compOk_expr_emit _ _ _ hne (stepOk_rfl c)
        | false =>
          rw [if_neg Bool.false_ne_true] at h
          injection h with h
          subst h
          exact compOk_expr_emit _ _ _ hne (stepOk_rfl c)
      | identE name =>
        simp only [compileGo] at h
        rcases hres : resolve c.symbolTable name with ⟨_ | sym, tabs⟩
        · rw [hres] at h
          simp at h
        · rw [hres] at h
          simp only [] at h
          injection h with h
          subst h
          obtain ⟨op, ops, hl⟩ := loadSymbol_eq_emit { c with symbolTable := tabs } sym
          rw [hl]
          refine compOk_expr_emit _ op ops hne ?_
          exact ⟨⟨rfl, rfl⟩, fun hg =>
            ⟨⟨rfl, rfl, ⟨[], (List.append_nil _).symm⟩, Or.inl rfl⟩, hg⟩⟩
      | prefixExpr op r =>
        simp only [compileGo] at h
        cases hr : compileGo fuel (.expr r) c with
        | error m => rw [hr] at h; simp at h
        | ok c1 =>
          rw [hr] at h
          simp only [] at h
          have h1 := ih (.expr r) c c1 hne hr
          have hne1 : c1.scopes ≠ [] := scopes_ne_of_shape h1.1.1 hne
          split at h
          · injection h with h; subst h; exact compOk_expr_emit _ _ _ hne1 h1.1
          · split at h
            · injection h with h; subst h; exact compOk_expr_emit _ _ _ hne1 h1.1
            · simp at h
      | infixExpr op l r =>
        simp only [compileGo] at h
        by_cases hop : op = "<"
        · rw [if_pos hop] at h
          cases hr : compileGo fuel (.expr r) c with
          | error m => rw [hr] at h; simp at h
          | ok c1 =>
            rw [hr] at h
            simp only [] at h
            cases hr2 : compileGo fuel (.expr l) c1 with
            | error m => rw [hr2] at h; simp at h
            | ok c2 =>
              rw [hr2] at h
              simp only [] at h
              injection h with h
              subst h
              have h1 := ih (.expr r) c c1 hne hr
              have hne1 : c1.scopes ≠ [] := scopes_ne_of_shape h1.1.1 hne
              have h2 := ih (.expr l) c1 c2 hne1 hr2
              have hne2 : c2.scopes ≠ [] := scopes_ne_of_shape h2.1.1 hne1
              exact compOk_expr_emit _ _ _ hne2 (stepOk_trans h1.1 h2.1)
        · rw [if_neg hop] at h
          cases hr : compileGo fuel (.expr l) c with
          | error m => rw [hr] at h; simp at h
          | ok c1 =>
            rw [hr] at h
            simp only [] at h
            cases hr2 : compileGo fuel (.expr r) c1 with
            | error m => rw [hr2] at h; simp at h
            | ok c2 =>
              rw [hr2] at h
              simp only [] at h
              have h1 := ih (.expr l) c c1 hne hr
              have hne1 : c1.scopes ≠ [] := scopes_ne_of_shape h1.1.1 hne
              have h2 := ih (.expr r) c1 c2 hne1 hr2
              have hne2 : c2.scopes ≠ [] := scopes_ne_of_shape h2.1.1 hne1
              have hstep := stepOk_trans h1.1 h2.1
              split at h
              · injection h with h; subst h; exact compOk_expr_emit _ _ _ hne2 hstep
              · split at h
                · injection h with h; subst h; exact compOk_expr_emit _ _ _ hne2 hstep
                · split at h
                  · injection h with h; subst h; exact compOk_expr_emit _ _ _ hne2 hstep
                  · split at h
                    · injection h with h; subst h
                      exact compOk_expr_emit _ _ _ hne2 hstep
                    · split at h
                      · injection h with h; subst h
                        exact compOk_expr_emit _ _ _ hne2 hstep
                      · split at h
                        · injection h with h; subst h
                          exact compOk_expr_emit _ _ _ hne2 hstep
                        · split at h
                          · injection h with h; subst h
                            exact compOk_expr_emit _ _ _ hne2 hstep
                          · simp at h
      | arrayLit elems =>
        simp only [compileGo] at h
        cases hr : compileGo fuel (.exprList elems) c with
        | error m => rw [hr] at h; simp at h
        | ok c1 =>
          rw [hr] at h
          simp only [] at h
          injection h with h
          subst h
          have h1 := ih (.exprList elems) c c1 hne hr
          have hne1 : c1.scopes ≠ [] := scopes_ne_of_shape h1.1.1 hne
          exact compOk_expr_emit _ _ _ hne1 h1.1
      | hashLit pairs =>
        simp only [compileGo] at h
        cases hr : compileGo fuel (.sortedPairs (sortPairs pairs)) c with
        | error m => rw [hr] at h; simp at h
        | ok c1 =>
          rw [hr] at h
          simp only [] at h
          injection h with h
          subst h
          have h1 := ih (.sortedPairs (sortPairs pairs)) c c1 hne hr
          have hne1 : c1.scopes ≠ [] := scopes_ne_of_shape h1.1.1 hne
          exact compOk_expr_emit _ _ _ hne1 h1.1
      | indexExpr l i =>
        simp only [compileGo] at h
        cases hr : compileGo fuel (.expr l) c with
        | error m => rw [hr] at h; simp at h
        | ok c1 =>
          rw [hr] at h
          simp only [] at h
          cases hr2 : compileGo fuel (.expr i) c1 with
          | error m => rw [hr2] at h; simp at h
          | ok c2 =>
            rw [hr2] at h
            simp only [] at h
            injection h with h
            subst h
            have h1 := ih (.expr l) c c1 hne hr
            have hne1 : c1.scopes ≠ [] := scopes_ne_of_shape h1.1.1 hne
            have h2 := ih (.expr i) c1 c2 hne1 hr2
            have hne2 : c2.scopes ≠ [] := scopes_ne_of_shape h2.1.1 hne1
            exact compOk_expr_emit _ _ _ hne2 (stepOk_trans h1.1 h2.1)
      | callExpr f args =>
        simp only [compileGo] at h
        cases hr : compileGo fuel (.expr f) c with
        | error m => rw [hr] at h; simp at h
        | ok c1 =>
          rw [hr] at h
          simp only [] at h
          cases hr2 : compileGo fuel (.exprList args) c1 with
          | error m => rw [hr2] at h; simp at h
          | ok c2 =>
            rw [hr2] at h
            simp only [] at h
            injection h with h
            subst h
            have h1 := ih (.expr f) c c1 hne hr
            have hne1 : c1.scopes ≠ [] := scopes_ne_of_shape h1.1.1 hne
            have h2 := ih (.exprList args) c1 c2 hne1 hr2
            have hne2 : c2.scopes ≠ [] := scopes_ne_of_shape h2.1.1 hne1
            exact compOk_expr_emit _ _ _ hne2 (stepOk_trans h1.1 h2.1)
      | funcLit name params body =>
        simp only [compileGo] at h
        by_cases hname : name ≠ ""
        · rw [if_pos hname] at h
          split at h
          · simp at h
          · rename_i c3 hbody
            injection h with h
            subst h
            have h3 := ih (.stmtList body) _ c3 (List.cons_ne_nil _ _) hbody
            exact compOk_funcLit _ _ _ _ hne rfl h3.1
        · rw [if_neg hname] at h
          split at h
          · simp at h
          · rename_i c3 hbody
            injection h with h
            subst h
            have h3 := ih (.stmtList body) _ c3 (List.cons_ne_nil _ _) hbody
            exact compOk_funcLit _ _ _ _ hne rfl h3.1
      | ifExpr cond cons alt =>
        cases alt with
        | noAlt =>
          simp only [compileGo] at h
          cases hcond : compileGo fuel (.expr cond) c with
          | error m => rw [hcond] at h; simp at h
          | ok c1 =>
            rw [hcond] at h
            simp only [] at h
            cases hcons : compileGo fuel (.stmtList cons)
                (emit c1 .opJumpNotTruthy [9999]).2 with
            | error m => rw [hcons] at h; simp at h
            | ok c3 =>
              rw [hcons] at h
              simp only [] at h
              injection h with h
              subst h
              have h1 := ih (.expr cond) c c1 hne hcond
              have hne1 : c1.scopes ≠ [] := scopes_ne_of_shape h1.1.1 hne
              have hnej :=
                scopes_ne_of_shape (shape_emit c1 Opcode.opJumpNotTruthy [9999]) hne1
              have h3 := ih (.stmtList cons) _ c3 hnej hcons
              exact compOk_if_noAlt _ hne h1.1 rfl rfl h3.1
                (fun hgj => (h3.2.2.1 True.intro).imp id (fun hE => hE hgj))
                rfl rfl rfl rfl rfl
        | withAlt b =>
          simp only [compileGo] at h
          cases hcond : compileGo fuel (.expr cond) c with
          | error m => rw [hcond] at h; simp at h
          | ok c1 =>
            rw [hcond] at h
            simp only [] at h
            cases hcons : compileGo fuel (.stmtList cons)
                (emit c1 .opJumpNotTruthy [9999]).2 with
            | error m => rw [hcons] at h; simp at h
            | ok c3 =>
              rw [hcons] at h
              simp only [] at h
              split at h
              · simp at h
              · rename_i c7 halt
                injection h with h
                subst h
                have h1 := ih (.expr cond) c c1 hne hcond
                have hne1 : c1.scopes ≠ [] := scopes_ne_of_shape h1.1.1 hne
                have hnej :=
                  scopes_ne_of_shape (shape_emit c1 Opcode.opJumpNotTruthy [9999]) hne1
                have h3 := ih (.stmtList cons) _ c3 hnej hcons
                have hne3 : c3.scopes ≠ [] := scopes_ne_of_shape h3.1.1 hnej
                have hne4 := scopes_ne_of_shape (shape_pop_ite c3) hne3
                have hnjp :=
                  scopes_ne_of_shape (shape_emit _ Opcode.opJump [9999]) hne4
                have h7 := ih (.stmtList b) _ c7
                  (scopes_ne_of_shape (shape_changeOperand _ _ _) hnjp) halt
                exact compOk_if_withAlt _ hne h1.1 rfl rfl h3.1
                  (fun hgj => (h3.2.2.1 True.intro).imp id (fun hE => hE hgj))
                  rfl rfl rfl rfl h7.1
                  (fun hg6 => (h7.2.2.1 True.intro).imp id (fun hE => hE hg6)) rfl

theorem addConstant_constants (c : Compiler) (obj : Obj) :
    (addConstant c obj).2.constants = c.constants ++ [obj] := rfl

theorem lookupDefinition_ge (n : Nat) : lookupDefinition (n + 30) = none := rfl

/-! ## Claim C2 -/

/-- Claim C2: for an infix expression with operator `<`, `Compile` compiles
the **right** operand first, then the left operand, then emits a single
`OpGreaterThan` (first conjunct, the exact dispatch of the `<` branch).
On success the byte stream is exactly the old stream, followed by the
right operand's bytes, the left operand's bytes, and the one-byte
`OpGreaterThan` instruction (second conjunct).  The instruction set has no
dedicated less-than opcode: no entry of the definitions table is named
`OpLessThan` (third conjunct). -/
theorem C2_less_than_swaps_and_uses_greater_than :
    (∀ (fuel : Nat) (l r : Expr) (c : Compiler),
      compileGo (fuel + 1) (.expr (.infixExpr "<" l r)) c =
        match compileGo fuel (.expr r) c with
        | Except.error msg => Except.error msg
        | Except.ok c1 =>
          match compileGo fuel (.expr l) c1 with
          | Except.error msg => Except.error msg
          | Except.ok c2 => Except.ok (emit c2 .opGreaterThan []).2) ∧
    (∀ (fuel : Nat) (l r : Expr) (c c1 c2 : Compiler),
      c.scopes ≠ [] → GoodScope (currentScope c) →
      compileGo fuel (.expr r) c = Except.ok c1 →
      compileGo fuel (.expr l) c1 = Except.ok c2 →
      ∃ dR dL,
        currentInstructions c1 = currentInstructions c ++ dR ∧
        currentInstructions c2 = currentInstructions c ++ dR ++ dL ∧
        currentInstructions (emit c2 .opGreaterThan []).2 =
          currentInstructions c ++ dR ++ dL ++ [opByte Opcode.opGreaterThan]) ∧
    (∀ (b : Nat) (d : Definition), lookupDefinition b = some d → d.name ≠ "OpLessThan") := by
  refine ⟨fun _ _ _ _ => rfl, ?_, ?_⟩
  · intro fuel l r c c1 c2 hne hg hr hl
    have h1 := compileGo_ok fuel (.expr r) c c1 hne hr
    obtain ⟨ext1, hg1⟩ := h1.1.2 hg
    have hne1 : c1.scopes ≠ [] := scopes_ne_of_shape h1.1.1 hne
    have h2 := compileGo_ok fuel (.expr l) c1 c2 hne1 hl
    obtain ⟨ext2, _⟩ := h2.1.2 hg1
    have hne2 : c2.scopes ≠ [] := scopes_ne_of_shape h2.1.1 hne1
    obtain ⟨dR, hdR⟩ := ext1.2.2.1
    obtain ⟨dL, hdL⟩ := ext2.2.2.1
    refine ⟨dR, dL, hdR, ?_, ?_⟩
    · rw [hdL, hdR]
    · rw [cur_emit c2 .opGreaterThan [] hne2, hdL, hdR]
      rfl
  · intro b d hbd
    by_cases hb : b < 30
    · interval_cases b <;> (injection hbd with hbd; subst hbd; decide)
    · obtain ⟨n, rfl⟩ : ∃ n, b = n + 30 := ⟨b - 30, by omega⟩
      rw [lookupDefinition_ge] at hbd
      exact absurd hbd (by simp)

/-- Witness for C2: compiling `1 < 2` from a fresh compiler, the right
operand `2` is compiled first into `c2w1`, then the left operand `1` into
`c2w2`, and the stream decomposes into the two operands' bytes followed by
the `OpGreaterThan` byte. -/
theorem C2_witness :
    newCompiler.scopes ≠ [] ∧ GoodScope (currentScope newCompiler) ∧
    compileGo 10 (.expr (.intLit "2" 2)) newCompiler = Except.ok c2w1 ∧
    compileGo 10 (.expr (.intLit "1" 1)) c2w1 = Except.ok c2w2 ∧
    ∃ dR dL,
      currentInstructions c2w1 = currentInstructions newCompiler ++ dR ∧
      currentInstructions c2w2 = currentInstructions newCompiler ++ dR ++ dL ∧
      currentInstructions (emit c2w2 .opGreaterThan []).2 =
        currentInstructions newCompiler ++ dR ++ dL ++ [opByte Opcode.opGreaterThan] :=
  ⟨List.cons_ne_nil _ _, Or.inl rfl, by decide, by decide,
    C2_less_than_swaps_and_uses_greater_than.2.1 10 (.intLit "1" 1) (.intLit "2" 2)
      newCompiler c2w1 c2w2 (List.cons_ne_nil _ _) (Or.inl rfl) (by decide) (by decide)⟩

/-! ## Claim C3 -/

/-- Claim C3: the function-body epilogue.  If the last emitted instruction
of the body is `OpPop`, it is rewritten **in place** to `OpReturnValue`
(first conjunct: the byte at the last instruction's position is
overwritten, the stream length is unchanged, and the tracked last opcode
becomes `OpReturnValue`; no `OpReturn` is appended).  Otherwise, if the
last instruction is already `OpReturnValue`, nothing changes (second
conjunct); and if it is neither, a one-byte `OpReturn` is appended (third
conjunct).  Consequently every compiled function constant produced by a
successful `Compile` of a function literal carries an instruction stream
ending in `OpReturnValue` or `OpReturn` (fourth conjunct). -/
theorem C3_function_epilogue_returns :
    (∀ c : Compiler, c.scopes ≠ [] → lastInstructionIs c .opPop = true →
      currentInstructions (finalizeFunctionBody c) =
        overwriteAt (currentInstructions c) (currentScope c).lastInstruction.position
          [opByte Opcode.opReturnValue] ∧
      (currentInstructions (finalizeFunctionBody c)).length =
        (currentInstructions c).length ∧
      (currentScope (finalizeFunctionBody c)).lastInstruction.opcode =
        Opcode.opReturnValue) ∧
    (∀ c : Compiler, lastInstructionIs c .opPop = false →
      lastInstructionIs c .opReturnValue = true →
      finalizeFunctionBody c = c) ∧
    (∀ c : Compiler, c.scopes ≠ [] → lastInstructionIs c .opPop = false →
      lastInstructionIs c .opReturnValue = false →
      currentInstructions (finalizeFunctionBody c) =
        currentInstructions c ++ [opByte Opcode.opReturn]) ∧
    (∀ (fuel : Nat) (name : String) (params : List String) (body : StmtList)
        (c c' : Compiler),
      c.scopes ≠ [] →
      compileGo fuel (.expr (.funcLit name params body)) c = Except.ok c' →
      ∃ ins numLocals,
        c'.constants.getLast? =
          some (.compiledFunction ins numLocals params.length) ∧
        (ins.getLast? = some (opByte Opcode.opReturnValue) ∨
         ins.getLast? = some (opByte Opcode.opReturn))) := by
  refine ⟨?_, ?_, ?_, ?_⟩
  · intro c hne hPop
    obtain ⟨hlen0, _⟩ := (lastInstructionIs_iff c .opPop).mp hPop
    simp only [finalizeFunctionBody]
    rw [if_pos hPop]
    have hs := replaceLastPopWithReturn_currentScope c hne
    have hcur4 : currentInstructions (replaceLastPopWithReturn c) =
        overwriteAt (currentInstructions c) (currentScope c).lastInstruction.position
          [opByte Opcode.opReturnValue] := by
      simp [currentInstructions, hs]
    have h2 : lastInstructionIs (replaceLastPopWithReturn c) .opReturnValue = true := by
      rw [lastInstructionIs_iff]
      exact ⟨by rw [hcur4, overwriteAt_length]; exact hlen0, by rw [hs]⟩
    rw [if_pos h2]
    exact ⟨hcur4, by rw [hcur4, overwriteAt_length], by rw [hs]⟩
  · intro c hPop hRet
    simp only [finalizeFunctionBody]
    have hc4 : (if lastInstructionIs c .opPop = true then replaceLastPopWithReturn c else c)
        = c := if_neg (by simp [hPop])
    rw [hc4, if_pos hRet]
  · intro c hne hPop hRet
    simp only [finalizeFunctionBody]
    have hc4 : (if lastInstructionIs c .opPop = true then replaceLastPopWithReturn c else c)
        = c := if_neg (by simp [hPop])
    rw [hc4, if_neg (by simp [hRet])]
    rw [cur_emit c .opReturn [] hne]
    rfl
  · intro fuel name params body c c' hne h
    cases fuel with
    | zero => exact absurd h (by simp [compileGo])
    | succ fuel =>
      simp only [compileGo] at h
      by_cases hname : name ≠ ""
      · rw [if_pos hname] at h
        split at h
        · simp at h
        · rename_i c3 hbody
          injection h with h
          subst h
          have h3 := compileGo_ok fuel (.stmtList body) _ c3 (List.cons_ne_nil _ _) hbody
          obtain ⟨_, hg3⟩ := h3.1.2 (Or.inl rfl)
          have hne3 : c3.scopes ≠ [] := scopes_ne_of_shape h3.1.1 (List.cons_ne_nil _ _)
          have hends := finalize_ends c3 hne3 hg3
          refine ⟨(leaveScope (finalizeFunctionBody c3)).1,
            ((finalizeFunctionBody c3).symbolTable.headD ⟨[], 0, []⟩).numDefinitions,
            ?_, ?_⟩
          · rw [emit_constants, addConstant_constants, List.getLast?_concat]
          · exact hends
      · rw [if_neg hname] at h
        split at h
        · simp at h
        · rename_i c3 hbody
          injection h with h
          subst h
          have h3 := compileGo_ok fuel (.stmtList body) _ c3 (List.cons_ne_nil _ _) hbody
          obtain ⟨_, hg3⟩ := h3.1.2 (Or.inl rfl)
          have hne3 : c3.scopes ≠ [] := scopes_ne_of_shape h3.1.1 (List.cons_ne_nil _ _)
          have hends := finalize_ends c3 hne3 hg3
          refine ⟨(leaveScope (finalizeFunctionBody c3)).1,
            ((finalizeFunctionBody c3).symbolTable.headD ⟨[], 0, []⟩).numDefinitions,
            ?_, ?_⟩
          · rw [emit_constants, addConstant_constants, List.getLast?_concat]
          · exact hends

/-- Witness for C3: compiling `fn() { 5 }` from a fresh compiler succeeds,
and the compiled-function constant it appends ends in `OpReturnValue` or
`OpReturn`. -/
theorem C3_witness :
    ∃ ins numLocals,
      c3Result.constants.getLast? = some (.compiledFunction ins numLocals 0) ∧
      (ins.getLast? = some (opByte Opcode.opReturnValue) ∨
       ins.getLast? = some (opByte Opcode.opReturn)) :=
  C3_function_epilogue_returns.2.2.2 12 "" [] c3Body newCompiler c3Result
    (List.cons_ne_nil _ _) (by decide)

end Kong
